import Mathlib

/-!
# Flattening store (`source.go`)

A shallow embedding of the Go package `source`: a `map[string]string` filled by
flattening a decoded document, with lookups that echo the key when it is absent.

* Go `map[string]string` is modelled by `Finmap` (finite map, extensional equality).
* Go `interface{}` produced by a deserializer is modelled by `Value`; a Go
  `map[string]interface{}` is the list of its entries in the order in which the
  `range` loop visits them (Go leaves that order unspecified).
* Go strings are modelled by `String`; only equality and concatenation are used.
* Go slices `[]string` are lists; the `nil` slice and the empty slice are both `[]`.
  `append(path, key)` on the slice a callee received by value is the list `path ++ [key]`:
  the caller and the siblings never read past their own length.
* The package variables `source` and `delimiter` form the record `Globals`.
* `prepareDataMem` is `prepareData` over slice headers and backing arrays, where `append`
  writes in place when there is capacity; `prepareDataMem_spec` shows that it fills the
  store as `prepareData` over lists does.
-/

namespace GoSource

/-- The Go type `Source`, a `map[string]string`. -/
abbrev Source := Finmap (fun _ : String => String)

/-- The Go type `error`, by its message. -/
abbrev Error := String

/-- A decoded `interface{}` value. `str` is the Go `string` case and `obj` the
`map[string]interface{}` case of the type switch in `prepareData`; the remaining
constructors are the other shapes a deserializer produces (the payload of a number is
never inspected by the package). -/
inductive Value where
  | str (s : String)
  | obj (m : List (String × Value))
  | num (n : Int)
  | bool (b : Bool)
  | list (l : List Value)
  | null
  deriving Inhabited

/-- The Go type `UnmarshalFunc`: the error it returns, or the value it leaves in `raw`. -/
abbrev UnmarshalFunc := List UInt8 → Except Error Value

/-- The library functions the package calls: `json.Unmarshal`, `os.Open` (giving a
file handle) and `ioutil.ReadAll`. -/
structure Env where
  jsonUnmarshal : UnmarshalFunc
  osOpen : String → Except Error Nat
  ioutilReadAll : Nat → Except Error (List UInt8)

/-- The package variables `source` and `delimiter`. -/
structure Globals where
  source : Source
  delimiter : String

/-- Initial values of the package variables: `Source{}` and `"."`. -/
def Globals.init : Globals := ⟨∅, "."⟩

/-- `NewSource`: a pointer to a fresh empty map. -/
def NewSource : Source := ∅

/-- `SetDelimeter`: assigns the package variable `delimiter`. -/
def SetDelimeter (d : String) (g : Globals) : Globals := { g with delimiter := d }

/-- `strings.Join(elems, sep)`. -/
def join : List String → String → String
  | [], _ => ""
  | [a], _ => a
  | a :: b :: rest, sep => a ++ sep ++ join (b :: rest) sep

/-- `put`: `src[key] = value`. -/
def put (s : Source) (key value : String) : Source := Finmap.insert key value s

/-- `get`: the comma-ok lookup, falling back to the key. -/
def get (src : Source) (key : String) : String :=
  match Finmap.lookup key src with
  | some res => res
  | none => key

/-- `getList`: appends `get(s, k)` for each key in turn, starting from `[]string{}`. -/
def getList (s : Source) (keys : List String) : List String :=
  keys.foldl (fun lst k => lst ++ [get s k]) []

mutual
/-- `prepareData`, with the package variable `delimiter` as first argument. The store
the pointer `src` refers to is threaded through and returned. The `path == nil` test
replaces the `nil` slice by the empty one, which are the same list here. A `default`-less
type switch does nothing for the other dynamic types. -/
def prepareData (delimiter : String) (src : Source) (v : Value) (path : List String)
    (key : String) : Source :=
  let path := if key ≠ "" then path ++ [key] else path
  match v with
  | .str x => put src (join path delimiter) x
  | .obj m => prepareEntries delimiter src m path
  | _ => src
/-- The `for k, v := range m` loop of `prepareData` over the entries still to visit. -/
def prepareEntries (delimiter : String) (src : Source) (m : List (String × Value))
    (path : List String) : Source :=
  match m with
  | [] => src
  | (k, v) :: rest => prepareEntries delimiter (prepareData delimiter src v path k) rest path
end

/-- `readFile`: open the file, then read all of it; either step may fail. -/
def readFile (env : Env) (path : String) : Except Error (List UInt8) :=
  match env.osOpen path with
  | .error err => .error err
  | .ok f =>
    match env.ioutilReadAll f with
    | .error err => .error err
    | .ok buf => .ok buf

/-- `unmarshalData`: the returned pair is the `error` result (`none` for `nil`) and the
store `s` points to when the call returns. A `nil` function is `none`. -/
def unmarshalData (env : Env) (delimiter : String) (s : Source) (d : List UInt8)
    (unmarshalFunc : Option UnmarshalFunc) : Option Error × Source :=
  let unmarshalFunc := match unmarshalFunc with
    | none => env.jsonUnmarshal
    | some f => f
  match unmarshalFunc d with
  | .error err => (some err, s)
  | .ok raw => (none, prepareData delimiter s raw [] "")

/-- Method `(*Source).FromFile`; `g` holds the package variables it reads. -/
def Source.FromFile (env : Env) (g : Globals) (s : Source) (path : String)
    (unmarshalFunc : Option UnmarshalFunc) : Option Error × Source :=
  match readFile env path with
  | .error err => (some err, s)
  | .ok data => unmarshalData env g.delimiter s data unmarshalFunc

/-- Method `(*Source).FromData`. -/
def Source.FromData (env : Env) (g : Globals) (s : Source) (data : List UInt8)
    (unmarshalFunc : Option UnmarshalFunc) : Option Error × Source :=
  unmarshalData env g.delimiter s data unmarshalFunc

/-- Package-level `FromFile`, acting on the package variable `source`. -/
def FromFile (env : Env) (g : Globals) (path : String)
    (unmarshalFunc : Option UnmarshalFunc) : Option Error × Globals :=
  match readFile env path with
  | .error err => (some err, g)
  | .ok data =>
    let r := unmarshalData env g.delimiter g.source data unmarshalFunc
    (r.1, { g with source := r.2 })

/-- Package-level `FromData`, acting on the package variable `source`. -/
def FromData (env : Env) (g : Globals) (data : List UInt8)
    (unmarshalFunc : Option UnmarshalFunc) : Option Error × Globals :=
  let r := unmarshalData env g.delimiter g.source data unmarshalFunc
  (r.1, { g with source := r.2 })

/-- Method `(*Source).Get`. -/
def Source.Get (s : Source) (key : String) : String := get s key

/-- Package-level `Get`. -/
def Get (g : Globals) (key : String) : String := get g.source key

/-- Method `(*Source).GetList`. -/
def Source.GetList (s : Source) (keys : List String) : List String := getList s keys

/-- Package-level `GetList`. -/
def GetList (g : Globals) (keys : List String) : List String := getList g.source keys

/-! ## Vocabulary for stating the properties -/

mutual
/-- The string leaves of a value in visiting order, each with the mapping keys on the
way from the root down to it. -/
def Value.leaves : Value → List (List String × String)
  | .str x => [([], x)]
  | .obj m => leavesEntries m
  | _ => []
/-- The string leaves below the entries of a mapping. -/
def leavesEntries : List (String × Value) → List (List String × String)
  | [] => []
  | (k, v) :: rest => (v.leaves.map fun px => (k :: px.1, px.2)) ++ leavesEntries rest
end

/-- The composite key the code builds for a leaf reached from `path` through the mapping
keys `p`: empty keys add no segment. -/
def compose (d : String) (path p : List String) : String :=
  join (path ++ p.filter (fun k => k ≠ "")) d

/-- The `(composite key, value)` pairs of a value flattened below `path`, in visiting order. -/
def entries (d : String) (path : List String) (v : Value) : List (String × String) :=
  v.leaves.map fun px => (compose d path px.1, px.2)

/-- A run of `put` calls. -/
def putAll (s : Source) (l : List (String × String)) : Source :=
  l.foldl (fun acc kv => put acc kv.1 kv.2) s

/-- The value of the last pair of `l` with key `k`, if any. -/
def lastVal : List (String × String) → String → Option String
  | [], _ => none
  | (k', x) :: rest, k =>
    match lastVal rest k with
    | some y => some y
    | none => if k = k' then some x else none

/-- Two values that are the same document, its mappings visited in different orders. -/
inductive Reorder : Value → Value → Prop
  | refl (v : Value) : Reorder v v
  | perm {m m' : List (String × Value)} : m.Perm m' → Reorder (.obj m) (.obj m')
  | child {m₁ m₂ : List (String × Value)} {k : String} {v v' : Value} :
      Reorder v v' → Reorder (.obj (m₁ ++ (k, v) :: m₂)) (.obj (m₁ ++ (k, v') :: m₂))
  | trans {a b c : Value} : Reorder a b → Reorder b c → Reorder a c

/-- No two string leaves with different values get the same composite key. -/
def NoClash (d : String) (v : Value) : Prop :=
  ∀ p x p' x', (p, x) ∈ v.leaves → (p', x') ∈ v.leaves →
    compose d [] p = compose d [] p' → x = x'

mutual
/-- Every mapping inside the value has pairwise distinct keys, as a Go map does. -/
def Value.wf : Value → Bool
  | .obj m => decide ((m.map Prod.fst).Nodup) && wfEntries m
  | .list l => wfList l
  | _ => true
/-- Well-formedness of the values of the entries of a mapping. -/
def wfEntries : List (String × Value) → Bool
  | [] => true
  | (_, v) :: rest => v.wf && wfEntries rest
/-- Well-formedness of the elements of a list value. -/
def wfList : List Value → Bool
  | [] => true
  | v :: rest => v.wf && wfList rest
end

mutual
/-- The value with every mapping entry (at any depth) dropped whose value is neither a
string nor a mapping. -/
def Value.prune : Value → Value
  | .obj m => .obj (pruneEntries m)
  | v => v
/-- The entries of a mapping whose value is a string or a mapping, pruned in turn. -/
def pruneEntries : List (String × Value) → List (String × Value)
  | [] => []
  | (k, .str x) :: rest => (k, .str x) :: pruneEntries rest
  | (k, .obj m) :: rest => (k, .obj (pruneEntries m)) :: pruneEntries rest
  | _ :: rest => pruneEntries rest
end

mutual
/-- Only strings and mappings occur as values of mapping entries, at any depth. -/
def Value.onlyStrObj : Value → Bool
  | .obj m => onlyStrObjEntries m
  | _ => true
/-- All entries of a mapping hold a string or a mapping of the same kind. -/
def onlyStrObjEntries : List (String × Value) → Bool
  | [] => true
  | (_, .str _) :: rest => onlyStrObjEntries rest
  | (_, .obj m) :: rest => onlyStrObjEntries m && onlyStrObjEntries rest
  | _ :: _ => false
end

/-! ## Sample documents -/

/-- The document `{"a": {"b": "hello", "c": "world"}}`, `"b"` visited before `"c"`. -/
def helloWorld : Value :=
  .obj [("a", .obj [("b", .str "hello"), ("c", .str "world")])]

/-- The same document, `"c"` visited before `"b"`. -/
def helloWorldSwapped : Value :=
  .obj [("a", .obj [("c", .str "world"), ("b", .str "hello")])]

/-- The document `{"a": {"b": "x"}, "a.b": "y"}`, `"a"` visited before `"a.b"`. -/
def clashDoc : Value :=
  .obj [("a", .obj [("b", .str "x")]), ("a.b", .str "y")]

/-- The same document, `"a.b"` visited before `"a"`. -/
def clashDocSwapped : Value :=
  .obj [("a.b", .str "y"), ("a", .obj [("b", .str "x")])]

/-- The document `{"": {"a": "x"}}`. -/
def emptyKeyDoc : Value :=
  .obj [("", .obj [("a", .str "x")])]

/-! ## Sample library functions -/

/-- A deserializer that rejects empty input and decodes anything else to `helloWorld`. -/
def sampleUnmarshal : UnmarshalFunc := fun data =>
  if data = [] then .error "unexpected end of input" else .ok helloWorld

/-- A library in which the only file is `"en.json"`, with handle `0` and one byte. -/
def sampleEnv : Env where
  jsonUnmarshal := sampleUnmarshal
  osOpen := fun path => if path = "en.json" then .ok 0 else .error "no such file or directory"
  ioutilReadAll := fun _ => .ok [123]

/-! ## Further vocabulary -/

/-- The chain of single-entry mappings `{k1: {k2: ... {kn: x}}}`; the bare string `x`
for no keys. -/
def chain : List String → String → Value
  | [], x => .str x
  | k :: ks, x => .obj [(k, chain ks x)]

mutual
/-- The number of values `prepareData` is called on when flattening a value: the value
itself and, for a mapping, what its entries hold, recursively. -/
def Value.nodes : Value → Nat
  | .obj m => 1 + nodesEntries m
  | _ => 1
/-- The number of values below the entries of a mapping. -/
def nodesEntries : List (String × Value) → Nat
  | [] => 0
  | (_, v) :: rest => v.nodes + nodesEntries rest
end

mutual
/-- Every mapping key on the way to any value inside is non-empty and does not contain
the delimiter `d` as a substring. -/
def Value.keysOk (d : String) : Value → Bool
  | .obj m => keysOkEntries d m
  | _ => true
/-- The keys of the entries of a mapping, and those below them, are as `Value.keysOk` asks. -/
def keysOkEntries (d : String) : List (String × Value) → Bool
  | [] => true
  | (k, v) :: rest =>
    (decide (k ≠ "") && !decide (d.data <:+: k.data)) && (v.keysOk d && keysOkEntries d rest)
end

/-- No non-empty proper prefix of `d` is also a suffix of `d`: two occurrences of `d` in a
string cannot overlap. -/
def overlapFree (d : String) : Bool :=
  (List.range d.data.length).all fun j =>
    j == 0 || d.data.take j != d.data.drop (d.data.length - j)

/-! ## Slices with backing arrays

`prepareData` once more, with the `[]string` argument as Go represents it: a slice header
over a backing array that `append` may write to in place. -/

/-- A slice header of a `[]string`: whether it is `nil`, its backing array, its length and
its capacity. -/
structure Slice where
  isNil : Bool
  arr : Nat
  len : Nat
  cap : Nat

/-- The memory of the backing arrays: `cells a i` is element `i` of array `a`; the arrays
numbered `next` and above are not allocated yet. -/
structure Heap where
  cells : Nat → Nat → String
  next : Nat

/-- The `nil` slice. -/
def Slice.nil : Slice := ⟨true, 0, 0, 0⟩

/-- The slice `[]string{}`. -/
def Slice.empty : Slice := ⟨false, 0, 0, 0⟩

/-- The elements of a slice, as `strings.Join` reads them. -/
def Slice.elems (h : Heap) (p : Slice) : List String :=
  (List.range p.len).map (h.cells p.arr)

/-- The builtin `append(path, key)`: within capacity the element is written into the
backing array in place; otherwise a new array with room for it (and `slack` more, as the
runtime decides) receives a copy of the elements. -/
def appendSlice (slack : Nat → Nat) (h : Heap) (p : Slice) (key : String) : Heap × Slice :=
  if p.len < p.cap then
    (⟨Function.update h.cells p.arr (Function.update (h.cells p.arr) p.len key), h.next⟩,
      ⟨false, p.arr, p.len + 1, p.cap⟩)
  else
    (⟨Function.update h.cells h.next
        (fun i => if i < p.len then h.cells p.arr i else if i = p.len then key else ""),
      h.next + 1⟩,
      ⟨false, h.next, p.len + 1, p.len + 1 + slack p.len⟩)

mutual
/-- `prepareData` on slice headers; the memory and the store are threaded through. -/
def prepareDataMem (slack : Nat → Nat) (delimiter : String) (st : Heap × Source) (v : Value)
    (path : Slice) (key : String) : Heap × Source :=
  let path := if path.isNil then Slice.empty else path
  let hp := if key ≠ "" then appendSlice slack st.1 path key else (st.1, path)
  match v with
  | .str x => (hp.1, put st.2 (join (hp.2.elems hp.1) delimiter) x)
  | .obj m => prepareEntriesMem slack delimiter (hp.1, st.2) m hp.2
  | _ => (hp.1, st.2)
/-- The `range` loop of `prepareData` on slice headers. -/
def prepareEntriesMem (slack : Nat → Nat) (delimiter : String) (st : Heap × Source)
    (m : List (String × Value)) (path : Slice) : Heap × Source :=
  match m with
  | [] => st
  | (k, v) :: rest =>
    prepareEntriesMem slack delimiter (prepareDataMem slack delimiter st v path k) rest path
end

/-- A slice header that fits the memory: length within capacity, a backing array that is
allocated when there is capacity, and no capacity for the `nil` slice. -/
def Slice.Valid (h : Heap) (p : Slice) : Prop :=
  p.len ≤ p.cap ∧ (0 < p.cap → p.arr < h.next) ∧ (p.isNil = true → p.cap = 0)

/-- From `h` to `h'` the allocated arrays are kept, and no cell changed except the spare
capacity of the slice `p` (its cells from `len` up to `cap`). -/
def Frame (p : Slice) (h h' : Heap) : Prop :=
  h.next ≤ h'.next ∧
  ∀ a i, a < h.next → ¬(a = p.arr ∧ p.len ≤ i ∧ i < p.cap) → h'.cells a i = h.cells a i

/-! ## More sample data -/

/-- The document `{"x": {":y": "1"}, "x:": {"y": "2"}}`, `"x"` visited before `"x:"`. -/
def overlapDoc : Value :=
  .obj [("x", .obj [(":y", .str "1")]), ("x:", .obj [("y", .str "2")])]

/-- The same document, `"x:"` visited before `"x"`. -/
def overlapDocSwapped : Value :=
  .obj [("x:", .obj [("y", .str "2")]), ("x", .obj [(":y", .str "1")])]

/-- The document `{"a": {"b": {"c": {"d": "1", "e": "2"}}}}`. -/
def deepDoc : Value :=
  .obj [("a", .obj [("b", .obj [("c", .obj [("d", .str "1"), ("e", .str "2")])])])]

/-- A memory with no array allocated. -/
def Heap.init : Heap := ⟨fun _ _ => "", 0⟩

/-- Capacity growth by doubling: a full slice of length `n ≥ 1` gets capacity `2 * n`. -/
def doubling : Nat → Nat := fun n => n - 1

/-- A memory with one array, holding `"root"` in its first cell. -/
def rootHeap : Heap := ⟨fun a i => if a = 0 ∧ i = 0 then "root" else "", 1⟩

/-- The slice `["root"]` over that array, with capacity for three more elements. -/
def rootSlice : Slice := ⟨false, 0, 1, 4⟩

/-! ## Lookups after a run of `put` calls -/

theorem lookup_put (s : Source) (k' x k : String) :
    Finmap.lookup k (put s k' x) = if k = k' then some x else Finmap.lookup k s := by
  unfold put
  by_cases h : k = k'
  · subst h; simp
  · simp [h, Finmap.lookup_insert_of_ne]

theorem putAll_nil (s : Source) : putAll s [] = s := rfl

theorem putAll_cons (s : Source) (kv : String × String) (l : List (String × String)) :
    putAll s (kv :: l) = putAll (put s kv.1 kv.2) l := rfl

theorem putAll_append (s : Source) (l₁ l₂ : List (String × String)) :
    putAll s (l₁ ++ l₂) = putAll (putAll s l₁) l₂ := by
  simp [putAll, List.foldl_append]

theorem lookup_putAll (l : List (String × String)) (s : Source) (k : String) :
    Finmap.lookup k (putAll s l) =
      match lastVal l k with
      | some y => some y
      | none => Finmap.lookup k s := by
  induction l generalizing s with
  | nil => simp [putAll, lastVal]
  | cons kv rest ih =>
    obtain ⟨k', x⟩ := kv
    rw [putAll_cons, ih, lookup_put]
    simp only [lastVal]
    cases lastVal rest k with
    | some y => rfl
    | none => by_cases h : k = k' <;> simp [h]

theorem lastVal_eq_none {l : List (String × String)} {k : String} :
    lastVal l k = none ↔ ∀ x, (k, x) ∉ l := by
  induction l with
  | nil => simp [lastVal]
  | cons kv rest ih =>
    obtain ⟨k', x⟩ := kv
    simp only [lastVal]
    cases hr : lastVal rest k with
    | some y =>
      simp only [reduceCtorEq, false_iff, not_forall, not_not]
      have : ¬ ∀ x, (k, x) ∉ rest := fun h => by rw [ih.mpr h] at hr; cases hr
      simp only [not_forall, not_not] at this
      obtain ⟨z, hz⟩ := this
      exact ⟨z, List.mem_cons_of_mem _ hz⟩
    | none =>
      have hn := ih.mp hr
      by_cases h : k = k'
      · subst h
        simp only [if_true, reduceCtorEq, false_iff, not_forall, not_not]
        exact ⟨x, List.mem_cons_self _ _⟩
      · simp [h, hn]

theorem lastVal_mem {l : List (String × String)} {k y : String} (h : lastVal l k = some y) :
    (k, y) ∈ l := by
  induction l with
  | nil => simp [lastVal] at h
  | cons kv rest ih =>
    obtain ⟨k', x⟩ := kv
    simp only [lastVal] at h
    cases hr : lastVal rest k with
    | some z =>
      rw [hr] at h
      cases h
      exact List.mem_cons_of_mem _ (ih hr)
    | none =>
      rw [hr] at h
      by_cases hk : k = k'
      · subst hk; simp at h; subst h; simp
      · simp [hk] at h

/-- When every pair with key `k` carries the value `x`, and there is one, the last one does. -/
theorem lastVal_of_unique {l : List (String × String)} {k x : String} (hx : (k, x) ∈ l)
    (hu : ∀ y, (k, y) ∈ l → y = x) : lastVal l k = some x := by
  cases h : lastVal l k with
  | none => exact absurd hx (lastVal_eq_none.mp h x)
  | some y => rw [hu y (lastVal_mem h)]

/-- Pairs lists with the same members and at most one value per key give the same last values. -/
theorem lastVal_congr {l l' : List (String × String)} (hm : ∀ kv, kv ∈ l ↔ kv ∈ l')
    (hu : ∀ k x y, (k, x) ∈ l → (k, y) ∈ l → x = y) (k : String) :
    lastVal l k = lastVal l' k := by
  cases h : lastVal l k with
  | none =>
    symm; rw [lastVal_eq_none]
    intro x hx
    exact lastVal_eq_none.mp h x ((hm _).mpr hx)
  | some y =>
    symm
    have hy := lastVal_mem h
    exact lastVal_of_unique ((hm _).mp hy) fun z hz => hu k z y ((hm _).mpr hz) hy

theorem putAll_congr {l l' : List (String × String)} (hm : ∀ kv, kv ∈ l ↔ kv ∈ l')
    (hu : ∀ k x y, (k, x) ∈ l → (k, y) ∈ l → x = y) (s : Source) :
    putAll s l = putAll s l' := by
  apply Finmap.ext_lookup
  intro k
  rw [lookup_putAll, lookup_putAll, lastVal_congr hm hu k]

/-- Running the same `put` calls a second time, after any run over the same keys, gives
what the second run alone gives. -/
theorem putAll_absorb {l l' : List (String × String)}
    (hk : ∀ k x, (k, x) ∈ l → ∃ y, (k, y) ∈ l') (s : Source) :
    putAll (putAll s l) l' = putAll s l' := by
  apply Finmap.ext_lookup
  intro k
  rw [lookup_putAll l', lookup_putAll l', lookup_putAll l]
  cases h : lastVal l' k with
  | some y => rfl
  | none =>
    have hl : lastVal l k = none := by
      rw [lastVal_eq_none]
      intro x hx
      obtain ⟨y, hy⟩ := hk k x hx
      exact lastVal_eq_none.mp h y hy
    rw [hl]

/-! ## `prepareData` as a run of `put` calls -/

/-- The path `prepareData` works with after its first two statements. -/
theorem compose_cons (d : String) (path : List String) (k : String) (p : List String) :
    compose d path (k :: p) = compose d (if k ≠ "" then path ++ [k] else path) p := by
  unfold compose
  by_cases h : k = ""
  · simp [h]
  · simp [h]

theorem entries_str (d : String) (path : List String) (x : String) :
    entries d path (.str x) = [(join path d, x)] := by
  simp [entries, Value.leaves, compose]

theorem entries_obj_nil (d : String) (path : List String) :
    entries d path (.obj []) = [] := by
  simp [entries, Value.leaves, leavesEntries]

theorem entries_obj_cons (d : String) (path : List String) (k : String) (v : Value)
    (rest : List (String × Value)) :
    entries d path (.obj ((k, v) :: rest)) =
      entries d (if k ≠ "" then path ++ [k] else path) v ++ entries d path (.obj rest) := by
  simp only [entries, Value.leaves, leavesEntries, List.map_append, List.map_map]
  congr 1
  apply List.map_congr_left
  intro px _
  simp [Function.comp, compose_cons]

mutual
theorem prepareData_eq (d : String) (s : Source) (v : Value) (path : List String)
    (key : String) :
    prepareData d s v path key =
      putAll s (entries d (if key ≠ "" then path ++ [key] else path) v) := by
  cases v with
  | str x => simp only [prepareData, entries_str]; rfl
  | obj m => simp only [prepareData]; exact prepareEntries_eq d s m _
  | num n => simp [prepareData, entries, Value.leaves, putAll]
  | bool b => simp [prepareData, entries, Value.leaves, putAll]
  | list l => simp [prepareData, entries, Value.leaves, putAll]
  | null => simp [prepareData, entries, Value.leaves, putAll]
theorem prepareEntries_eq (d : String) (s : Source) (m : List (String × Value))
    (path : List String) :
    prepareEntries d s m path = putAll s (entries d path (.obj m)) := by
  match m with
  | [] => simp [prepareEntries, entries_obj_nil, putAll]
  | (k, v) :: rest =>
    rw [prepareEntries, entries_obj_cons, putAll_append, prepareData_eq d s v path k,
      prepareEntries_eq d _ rest path]
end

/-! ## Visiting orders -/

theorem leavesEntries_append (m₁ m₂ : List (String × Value)) :
    leavesEntries (m₁ ++ m₂) = leavesEntries m₁ ++ leavesEntries m₂ := by
  induction m₁ with
  | nil => simp [leavesEntries]
  | cons kv rest ih =>
    obtain ⟨k, v⟩ := kv
    simp [leavesEntries, ih]

theorem leavesEntries_perm {m m' : List (String × Value)} (h : m.Perm m') :
    (leavesEntries m).Perm (leavesEntries m') := by
  induction h with
  | nil => exact List.Perm.refl _
  | cons kv _ ih =>
    obtain ⟨k, v⟩ := kv
    simp only [leavesEntries]
    exact ih.append_left _
  | swap a b l =>
    obtain ⟨k, v⟩ := a
    obtain ⟨k', v'⟩ := b
    simp only [leavesEntries, ← List.append_assoc]
    exact List.Perm.append_right _ List.perm_append_comm
  | trans _ _ ih₁ ih₂ => exact ih₁.trans ih₂

/-- Visiting the mappings in another order visits the same leaves, in another order. -/
theorem Reorder.leaves_perm {v v' : Value} (h : Reorder v v') : v.leaves.Perm v'.leaves := by
  induction h with
  | refl v => exact List.Perm.refl _
  | perm hp => simpa only [Value.leaves] using leavesEntries_perm hp
  | child _ ih =>
    simp only [Value.leaves, leavesEntries_append, leavesEntries]
    exact List.Perm.append_left _ (List.Perm.append_right _ (ih.map _))
  | trans _ _ ih₁ ih₂ => exact ih₁.trans ih₂

theorem Reorder.entries_perm {v v' : Value} (h : Reorder v v') (d : String)
    (path : List String) : (entries d path v).Perm (entries d path v') :=
  h.leaves_perm.map _

/-- Flattening at the root is the run of `put` calls over the entries below the empty path. -/
theorem prepareData_root (d : String) (s : Source) (v : Value) :
    prepareData d s v [] "" = putAll s (entries d [] v) := by
  rw [prepareData_eq]; rfl

theorem mem_entries {d : String} {path : List String} {v : Value} {k x : String} :
    (k, x) ∈ entries d path v ↔ ∃ p, (p, x) ∈ v.leaves ∧ compose d path p = k := by
  simp only [entries, List.mem_map, Prod.mk.injEq, Prod.exists]
  constructor
  · rintro ⟨p, y, hm, hk, rfl⟩; exact ⟨p, hm, hk⟩
  · rintro ⟨p, hm, hk⟩; exact ⟨p, x, hm, hk, rfl⟩

/-! ## Lookups -/

theorem getList_eq_map (s : Source) (keys : List String) :
    getList s keys = keys.map (get s) := by
  have h : ∀ acc : List String,
      keys.foldl (fun lst k => lst ++ [get s k]) acc = acc ++ keys.map (get s) := by
    induction keys with
    | nil => intro acc; simp
    | cons k rest ih => intro acc; simp [ih]
  simpa [getList] using h []

/-- C1: `Get(k)` returns the value stored under `k` when `k` is present in the store, and
`k` itself when `k` is not present; being a total function, it never fails. -/
theorem get_stored_or_key (s : Source) (k : String) :
    (∀ x, Finmap.lookup k s = some x → Source.Get s k = x) ∧
    (k ∉ s → Source.Get s k = k) := by
  constructor
  · intro x hx
    simp [Source.Get, GoSource.get, hx]
  · intro hk
    simp [Source.Get, GoSource.get, Finmap.lookup_eq_none.mpr hk]

/-- Witness for C1: a store holding `"greeting" -> "hello"`, asked for `"greeting"` and
for the absent `"z"`. -/
theorem get_stored_or_key_witness :
    Finmap.lookup "greeting" (put ∅ "greeting" "hello") = some "hello" ∧
    Source.Get (put ∅ "greeting" "hello") "greeting" = "hello" ∧
    "z" ∉ put ∅ "greeting" "hello" ∧
    Source.Get (put ∅ "greeting" "hello") "z" = "z" :=
  ⟨by decide,
   (get_stored_or_key (put ∅ "greeting" "hello") "greeting").1 "hello" (by decide),
   by decide,
   (get_stored_or_key (put ∅ "greeting" "hello") "z").2 (by decide)⟩

/-- C2, as stated, fails: in `{"a": {"b": "x"}, "a.b": "y"}` with delimiter `"."` the leaf
`"x"` below the keys `a`, `b` composes to `"a.b"`, yet `Get("a.b")` is `"y"`; and in
`{"": {"a": "x"}}` the keys `""`, `a` joined with `"."` give `".a"`, which is not stored. -/
theorem leaf_lookup_counterexample :
    (clashDoc.wf = true ∧ (["a", "b"], "x") ∈ clashDoc.leaves ∧
      Source.Get (prepareData "." ∅ clashDoc [] "") (join ["a", "b"] ".") = "y" ∧
      "y" ≠ "x") ∧
    (emptyKeyDoc.wf = true ∧ (["", "a"], "x") ∈ emptyKeyDoc.leaves ∧
      Source.Get (prepareData "." ∅ emptyKeyDoc [] "") (join ["", "a"] ".") = ".a" ∧
      ".a" ≠ "x") := by
  decide

/-- C2, amended: for every string leaf of `v` with value `x` whose non-empty mapping keys,
joined with `d`, compose to the key `k`, if every string leaf of `v` composing to `k` has
the value `x`, then `Get(k) == x` after flattening `v` into any store. -/
theorem leaf_lookup (v : Value) (d : String) (s : Source) (p : List String) (x : String)
    (hx : (p, x) ∈ v.leaves)
    (hu : ∀ p' x', (p', x') ∈ v.leaves → compose d [] p' = compose d [] p → x' = x) :
    Source.Get (prepareData d s v [] "") (compose d [] p) = x := by
  have hl : lastVal (entries d [] v) (compose d [] p) = some x := by
    apply lastVal_of_unique (mem_entries.mpr ⟨p, hx, rfl⟩)
    intro y hy
    obtain ⟨p', hp', hk⟩ := mem_entries.mp hy
    exact hu p' y hp' hk
  simp [Source.Get, GoSource.get, prepareData_root, lookup_putAll, hl]

/-- Witness for C2: the leaf `"hello"` two levels down in `{"a": {"b": "hello", "c": "world"}}`. -/
theorem leaf_lookup_witness :
    (["a", "b"], "hello") ∈ helloWorld.leaves ∧
    (∀ p' x', (p', x') ∈ helloWorld.leaves →
      compose "." [] p' = compose "." [] ["a", "b"] → x' = "hello") ∧
    Source.Get (prepareData "." ∅ helloWorld [] "") "a.b" = "hello" :=
  have hu : ∀ p' x', (p', x') ∈ helloWorld.leaves →
      compose "." [] p' = compose "." [] ["a", "b"] → x' = "hello" := by
    intro p' x' h hk
    simp only [helloWorld, Value.leaves, leavesEntries, List.map_cons, List.map_nil,
      List.append_nil, List.singleton_append, List.mem_cons, Prod.mk.injEq,
      List.mem_nil_iff, or_false] at h
    rcases h with ⟨rfl, rfl⟩ | ⟨rfl, rfl⟩
    · rfl
    · exact absurd hk (by decide)
  ⟨by decide, hu, leaf_lookup helloWorld "." ∅ ["a", "b"] "hello" (by decide) hu⟩

/-! ## The two-leaf scenario -/

theorem key_b_ne_key_c (d : String) : "a" ++ d ++ "b" ≠ "a" ++ d ++ "c" := by
  intro h
  have h' := congrArg String.data h
  simp only [String.data_append, List.append_cancel_left_eq] at h'
  exact absurd h' (by decide)

/-- C3: for every delimiter `d`, flattening `{"a": {"b": "hello", "c": "world"}}` into an
empty store, in either visiting order, yields exactly the two distinct entries
`"a"+d+"b" -> "hello"` and `"a"+d+"c" -> "world"`; with `d = "."` the store is
`{"a.b": "hello", "a.c": "world"}`, `Get("a.b") == "hello"`, `Get("missing") == "missing"`
and `GetList("a.b","a.c","z") == ["hello","world","z"]`; with `d = "/"` the store is
`{"a/b": "hello", "a/c": "world"}`. -/
theorem hello_world_scenario (d : String) :
    prepareData d ∅ helloWorld [] "" =
      put (put ∅ ("a" ++ d ++ "b") "hello") ("a" ++ d ++ "c") "world" ∧
    prepareData d ∅ helloWorldSwapped [] "" = prepareData d ∅ helloWorld [] "" ∧
    (prepareData d ∅ helloWorld [] "").keys = {"a" ++ d ++ "b", "a" ++ d ++ "c"} ∧
    (prepareData d ∅ helloWorld [] "").keys.card = 2 ∧
    (∀ k, Finmap.lookup k (prepareData d ∅ helloWorld [] "") =
      if k = "a" ++ d ++ "b" then some "hello"
      else if k = "a" ++ d ++ "c" then some "world" else none) ∧
    prepareData "." ∅ helloWorld [] "" = put (put ∅ "a.b" "hello") "a.c" "world" ∧
    Source.Get (prepareData "." ∅ helloWorld [] "") "a.b" = "hello" ∧
    Source.Get (prepareData "." ∅ helloWorld [] "") "missing" = "missing" ∧
    Source.GetList (prepareData "." ∅ helloWorld [] "") ["a.b", "a.c", "z"] =
      ["hello", "world", "z"] ∧
    prepareData "/" ∅ helloWorld [] "" = put (put ∅ "a/b" "hello") "a/c" "world" := by
  have hne := key_b_ne_key_c d
  have h1 : prepareData d ∅ helloWorld [] "" =
      put (put ∅ ("a" ++ d ++ "b") "hello") ("a" ++ d ++ "c") "world" := by
    simp [helloWorld, prepareData, prepareEntries, join]
  have h2 : prepareData d ∅ helloWorldSwapped [] "" =
      put (put ∅ ("a" ++ d ++ "c") "world") ("a" ++ d ++ "b") "hello" := by
    simp [helloWorldSwapped, prepareData, prepareEntries, join]
  have hk : (prepareData d ∅ helloWorld [] "").keys = {"a" ++ d ++ "b", "a" ++ d ++ "c"} := by
    ext k
    rw [h1, Finmap.mem_keys]
    simp only [put, Finmap.mem_insert, Finmap.not_mem_empty, or_false, Finset.mem_insert,
      Finset.mem_singleton]
    exact or_comm
  refine ⟨h1, ?_, hk, ?_, ?_, by decide, by decide, by decide, by decide, by decide⟩
  · rw [h1, h2]
    exact Finmap.insert_insert_of_ne _ hne.symm
  · rw [hk, Finset.card_pair hne]
  · intro k
    rw [h1, lookup_put, lookup_put]
    by_cases hb : k = "a" ++ d ++ "b"
    · subst hb; simp [hne]
    · simp [hb, Finmap.lookup_empty]

/-! ## Batch lookup -/

/-- C4: `GetList(ks...)` has the length of `ks`, its `i`-th element is `Get(ks[i])` for every
index `i` (and there is none beyond the length of `ks`), and it is empty for no keys. -/
theorem getList_pointwise (s : Source) (ks : List String) :
    (Source.GetList s ks).length = ks.length ∧
    (∀ i : Nat, (Source.GetList s ks)[i]? = (ks[i]?).map (Source.Get s)) ∧
    Source.GetList s [] = [] := by
  refine ⟨?_, ?_, rfl⟩
  · simp [Source.GetList, getList_eq_map]
  · intro i
    simp only [Source.GetList, getList_eq_map, List.getElem?_map]
    rfl

/-! ## Values that are neither strings nor mappings -/

theorem prepareEntries_prune (d : String) (s : Source) (m : List (String × Value))
    (path : List String) :
    prepareEntries d s m path = prepareEntries d s (pruneEntries m) path := by
  match m with
  | [] => simp [pruneEntries]
  | (k, .str x) :: rest =>
    simp only [pruneEntries, prepareEntries]
    exact prepareEntries_prune d _ rest path
  | (k, .obj m') :: rest =>
    simp only [pruneEntries, prepareEntries, prepareData]
    rw [prepareEntries_prune d s m' _]
    exact prepareEntries_prune d _ rest path
  | (k, .num n) :: rest =>
    simp only [pruneEntries, prepareEntries, prepareData]
    exact prepareEntries_prune d _ rest path
  | (k, .bool b) :: rest =>
    simp only [pruneEntries, prepareEntries, prepareData]
    exact prepareEntries_prune d _ rest path
  | (k, .list l) :: rest =>
    simp only [pruneEntries, prepareEntries, prepareData]
    exact prepareEntries_prune d _ rest path
  | (k, .null) :: rest =>
    simp only [pruneEntries, prepareEntries, prepareData]
    exact prepareEntries_prune d _ rest path

theorem onlyStrObjEntries_prune (m : List (String × Value)) :
    onlyStrObjEntries (pruneEntries m) = true := by
  match m with
  | [] => simp [pruneEntries, onlyStrObjEntries]
  | (k, .str x) :: rest =>
    simp only [pruneEntries, onlyStrObjEntries]
    exact onlyStrObjEntries_prune rest
  | (k, .obj m') :: rest =>
    simp only [pruneEntries, onlyStrObjEntries, Bool.and_eq_true]
    exact ⟨onlyStrObjEntries_prune m', onlyStrObjEntries_prune rest⟩
  | (k, .num n) :: rest => simp only [pruneEntries]; exact onlyStrObjEntries_prune rest
  | (k, .bool b) :: rest => simp only [pruneEntries]; exact onlyStrObjEntries_prune rest
  | (k, .list l) :: rest => simp only [pruneEntries]; exact onlyStrObjEntries_prune rest
  | (k, .null) :: rest => simp only [pruneEntries]; exact onlyStrObjEntries_prune rest

/-- C5: numbers, booleans, lists and null produce no entry and no error: flattened at the
root (or anywhere) they leave the store as it was, a load that decodes to one of them
reports no error, and flattening a mapping gives the same store as flattening it with
every entry, at any depth, whose value is neither a string nor a mapping removed. -/
theorem other_values_ignored (d : String) (s : Source) (path : List String) (key : String) :
    (∀ n, prepareData d s (.num n) path key = s) ∧
    (∀ b, prepareData d s (.bool b) path key = s) ∧
    (∀ l, prepareData d s (.list l) path key = s) ∧
    prepareData d s .null path key = s ∧
    (∀ env data n, unmarshalData env d s data (some fun _ => .ok (.num n)) = (none, s)) ∧
    (∀ env data b, unmarshalData env d s data (some fun _ => .ok (.bool b)) = (none, s)) ∧
    (∀ env data l, unmarshalData env d s data (some fun _ => .ok (.list l)) = (none, s)) ∧
    (∀ env data, unmarshalData env d s data (some fun _ => .ok .null) = (none, s)) ∧
    (∀ m, prepareData d s (.obj m) path key = prepareData d s (Value.obj m).prune path key) ∧
    (∀ m, (Value.obj m).prune.onlyStrObj = true) := by
  refine ⟨fun _ => rfl, fun _ => rfl, fun _ => rfl, rfl, fun _ _ _ => rfl, fun _ _ _ => rfl,
    fun _ _ _ => rfl, fun _ _ => rfl, ?_, ?_⟩
  · intro m
    simp only [Value.prune, prepareData]
    exact prepareEntries_prune d s m _
  · intro m
    simp only [Value.prune, Value.onlyStrObj]
    exact onlyStrObjEntries_prune m

/-! ## A bare string at the root -/

/-- C6: flattening the bare string `x` as the root value into an empty store yields the
store with the single entry `"" -> x`, whatever the delimiter; flattened into a store `s`
it sets the entry for `""` to `x` and changes no other entry. -/
theorem bare_string_root (d x : String) (s : Source) :
    prepareData d ∅ (.str x) [] "" = @Finmap.singleton String (fun _ => String) "" x ∧
    (prepareData d ∅ (.str x) [] "").keys = {""} ∧
    (∀ env data, unmarshalData env d ∅ data (some fun _ => .ok (.str x)) =
      (none, @Finmap.singleton String (fun _ => String) "" x)) ∧
    (∀ k, Finmap.lookup k (prepareData d s (.str x) [] "") =
      if k = "" then some x else Finmap.lookup k s) := by
  have h : prepareData d ∅ (.str x) [] "" = @Finmap.singleton String (fun _ => String) "" x := by
    apply Finmap.ext_lookup
    intro k
    simp only [prepareData, join, if_false, ne_eq, not_true_eq_false, lookup_put]
    by_cases hk : k = ""
    · subst hk; simp [Finmap.lookup_singleton_eq]
    · have : k ∉ @Finmap.singleton String (fun _ => String) "" x := by simp [Finmap.mem_singleton, hk]
      simp [hk, Finmap.lookup_eq_none.mpr this]
  refine ⟨h, ?_, ?_, ?_⟩
  · rw [h, Finmap.keys_singleton]
  · intro env data
    simp only [unmarshalData, h]
  · intro k
    simp only [prepareData, join, if_false, ne_eq, not_true_eq_false, lookup_put]

/-! ## Loading -/

/-- C7: `FromData` returns an error exactly when the deserializer does, the same one, and
then the store is as before the call; when the deserializer yields `v`, `FromData` returns
no error and the store is `v` flattened into it. `FromFile` returns the read error and
leaves the store as it was when reading the file fails. The package-level `FromData` does
the same on the package store. -/
theorem fromData_error_or_flatten (env : Env) (g : Globals) (s : Source) (data : List UInt8)
    (f : Option UnmarshalFunc) :
    (∀ err, (Source.FromData env g s data f).1 = some err ↔
      (f.getD env.jsonUnmarshal) data = .error err) ∧
    (∀ err, (f.getD env.jsonUnmarshal) data = .error err →
      Source.FromData env g s data f = (some err, s)) ∧
    (∀ v, (f.getD env.jsonUnmarshal) data = .ok v →
      Source.FromData env g s data f = (none, prepareData g.delimiter s v [] "")) ∧
    (∀ path err, readFile env path = .error err →
      Source.FromFile env g s path f = (some err, s)) ∧
    (∀ err, (f.getD env.jsonUnmarshal) data = .error err →
      FromData env g data f = (some err, g)) ∧
    (∀ v, (f.getD env.jsonUnmarshal) data = .ok v →
      FromData env g data f =
        (none, { g with source := prepareData g.delimiter g.source v [] "" })) := by
  have hf : ∀ (s' : Source), unmarshalData env g.delimiter s' data f =
      match (f.getD env.jsonUnmarshal) data with
      | .error err => (some err, s')
      | .ok raw => (none, prepareData g.delimiter s' raw [] "") := by
    intro s'
    cases f <;> rfl
  refine ⟨?_, ?_, ?_, ?_, ?_, ?_⟩
  · intro err
    simp only [Source.FromData, hf]
    cases h : (f.getD env.jsonUnmarshal) data with
    | error e => simp
    | ok v => simp
  · intro err h
    simp only [Source.FromData, hf, h]
  · intro v h
    simp only [Source.FromData, hf, h]
  · intro path err h
    simp only [Source.FromFile, h]
  · intro err h
    simp only [FromData, hf, h]
  · intro v h
    simp only [FromData, hf, h]

/-- Witness for C7: the sample deserializer rejects the empty input and accepts `[123]`;
the file `"fr.json"` does not exist. -/
theorem fromData_error_or_flatten_witness :
    sampleUnmarshal [] = .error "unexpected end of input" ∧
    Source.FromData sampleEnv Globals.init ∅ [] none =
      (some "unexpected end of input", ∅) ∧
    sampleUnmarshal [123] = .ok helloWorld ∧
    Source.FromData sampleEnv Globals.init ∅ [123] none =
      (none, prepareData "." ∅ helloWorld [] "") ∧
    readFile sampleEnv "fr.json" = .error "no such file or directory" ∧
    Source.FromFile sampleEnv Globals.init ∅ "fr.json" none =
      (some "no such file or directory", ∅) ∧
    FromData sampleEnv Globals.init [] none = (some "unexpected end of input", Globals.init) :=
  ⟨rfl,
   (fromData_error_or_flatten sampleEnv Globals.init ∅ [] none).2.1 _ rfl,
   rfl,
   (fromData_error_or_flatten sampleEnv Globals.init ∅ [123] none).2.2.1 _ rfl,
   rfl,
   (fromData_error_or_flatten sampleEnv Globals.init ∅ [] none).2.2.2.1 "fr.json" _ rfl,
   (fromData_error_or_flatten sampleEnv Globals.init ∅ [] none).2.2.2.2.1 _ rfl⟩

/-! ## A second pass over the same keys -/

theorem prepareData_absorb (d : String) (s : Source) (path : List String) (key : String)
    {v v' : Value} (h : Reorder v v') :
    prepareData d (prepareData d s v path key) v' path key = prepareData d s v' path key := by
  rw [prepareData_eq d s v, prepareData_eq d _ v', prepareData_eq d s v']
  apply putAll_absorb
  intro k x hx
  exact ⟨x, (h.entries_perm d _).mem_iff.mp hx⟩

/-! ## Changing the delimiter -/

/-- C9: `SetDelimeter(d)` replaces the delimiter and nothing else: the package store and
every answer of `Get` and `GetList` are as before; a load leaves the delimiter as it is;
and every load after the change, into the package store or into an explicit one, flattens
with `d`. -/
theorem setDelimeter_frame (d : String) (g : Globals) :
    (SetDelimeter d g).source = g.source ∧
    (SetDelimeter d g).delimiter = d ∧
    (∀ k, Get (SetDelimeter d g) k = Get g k) ∧
    (∀ ks, GetList (SetDelimeter d g) ks = GetList g ks) ∧
    (∀ env data f, (FromData env g data f).2.delimiter = g.delimiter) ∧
    (∀ env path f, (FromFile env g path f).2.delimiter = g.delimiter) ∧
    (∀ env data (f : Option UnmarshalFunc) v, (f.getD env.jsonUnmarshal) data = .ok v →
      FromData env (SetDelimeter d g) data f =
        (none, ⟨prepareData d g.source v [] "", d⟩)) ∧
    (∀ env s data (f : Option UnmarshalFunc) v, (f.getD env.jsonUnmarshal) data = .ok v →
      Source.FromData env (SetDelimeter d g) s data f = (none, prepareData d s v [] "")) := by
  refine ⟨rfl, rfl, fun _ => rfl, fun _ => rfl, fun _ _ _ => rfl, ?_, ?_, ?_⟩
  · intro env path f
    simp only [FromFile]
    cases readFile env path <;> rfl
  · intro env data f v h
    cases f with
    | none =>
      simp only [Option.getD] at h
      simp only [FromData, unmarshalData, SetDelimeter, h]
    | some f =>
      simp only [Option.getD] at h
      simp only [FromData, unmarshalData, SetDelimeter, h]
  · intro env s data f v h
    cases f with
    | none =>
      simp only [Option.getD] at h
      simp only [Source.FromData, unmarshalData, SetDelimeter, h]
    | some f =>
      simp only [Option.getD] at h
      simp only [Source.FromData, unmarshalData, SetDelimeter, h]

/-- Witness for C9: load with `"."`, change the delimiter to `"/"`, load again: the key
`"a.b"` stored by the first load is still there and the second load adds `"a/b"`. -/
theorem setDelimeter_frame_witness :
    sampleUnmarshal [123] = .ok helloWorld ∧
    FromData sampleEnv (SetDelimeter "/" (FromData sampleEnv Globals.init [123] none).2)
        [123] none =
      (none, ⟨prepareData "/" (prepareData "." ∅ helloWorld [] "") helloWorld [] "", "/"⟩) ∧
    Get (FromData sampleEnv (SetDelimeter "/" (FromData sampleEnv Globals.init [123] none).2)
        [123] none).2 "a.b" = "hello" ∧
    Get (FromData sampleEnv (SetDelimeter "/" (FromData sampleEnv Globals.init [123] none).2)
        [123] none).2 "a/b" = "hello" :=
  ⟨rfl,
   (setDelimeter_frame "/" (FromData sampleEnv Globals.init [123] none).2).2.2.2.2.2.2.1
     sampleEnv [123] none helloWorld rfl,
   by decide, by decide⟩

/-! ## The visiting order -/

/-- C10, as stated, fails: `{"a": {"b": "x"}, "a.b": "y"}` flattened with delimiter `"."`
maps `"a.b"` to `"y"` when `"a"` is visited first and to `"x"` when `"a.b"` is. -/
theorem visiting_order_counterexample :
    clashDoc.wf = true ∧ Reorder clashDoc clashDocSwapped ∧
    Source.Get (prepareData "." ∅ clashDoc [] "") "a.b" = "y" ∧
    Source.Get (prepareData "." ∅ clashDocSwapped [] "") "a.b" = "x" ∧
    prepareData "." ∅ clashDoc [] "" ≠ prepareData "." ∅ clashDocSwapped [] "" :=
  ⟨by decide, Reorder.perm (List.Perm.swap _ _ _), by decide, by decide, by decide⟩

/-- C10, amended: when no two string leaves of `v` with different values get the same
composite key under the delimiter `d`, flattening `v` into `s` yields the same store for
any two visiting orders of the entries of the mappings inside `v`. -/
theorem visiting_order_irrelevant (v v₁ v₂ : Value) (d : String) (s : Source)
    (hc : NoClash d v) (h₁ : Reorder v v₁) (h₂ : Reorder v v₂) :
    prepareData d s v₁ [] "" = prepareData d s v₂ [] "" := by
  have key : ∀ v', Reorder v v' → prepareData d s v [] "" = prepareData d s v' [] "" := by
    intro v' h
    rw [prepareData_root, prepareData_root]
    apply putAll_congr
    · intro kv
      exact (h.entries_perm d []).mem_iff
    · intro k x y hx hy
      obtain ⟨p, hp, hpk⟩ := mem_entries.mp hx
      obtain ⟨p', hp', hpk'⟩ := mem_entries.mp hy
      exact hc p x p' y hp hp' (hpk.trans hpk'.symm)
  rw [← key v₁ h₁, ← key v₂ h₂]

/-- Witness for C10: the two visiting orders of `{"a": {"b": "hello", "c": "world"}}`. -/
theorem visiting_order_irrelevant_witness :
    NoClash "." helloWorld ∧ Reorder helloWorld helloWorld ∧
    Reorder helloWorld helloWorldSwapped ∧
    prepareData "." ∅ helloWorld [] "" = prepareData "." ∅ helloWorldSwapped [] "" :=
  have hc : NoClash "." helloWorld := by
    intro p x p' x' h h' hk
    simp only [helloWorld, Value.leaves, leavesEntries, List.map_cons, List.map_nil,
      List.append_nil, List.singleton_append, List.mem_cons, Prod.mk.injEq,
      List.mem_nil_iff, or_false] at h h'
    rcases h with ⟨rfl, rfl⟩ | ⟨rfl, rfl⟩ <;> rcases h' with ⟨rfl, rfl⟩ | ⟨rfl, rfl⟩
    · rfl
    · exact absurd hk (by decide)
    · exact absurd hk (by decide)
    · rfl
  have h : Reorder helloWorld helloWorldSwapped :=
    @Reorder.child [] [] "a" _ _ (Reorder.perm (List.Perm.swap _ _ _))
  ⟨hc, Reorder.refl _, h,
   visiting_order_irrelevant helloWorld helloWorld helloWorldSwapped "." ∅ hc
     (Reorder.refl _) h⟩

/-! ## Key sets after a run of `put` calls -/

theorem keys_put (s : Source) (k x : String) : (put s k x).keys = insert k s.keys := by
  ext a
  simp [put, Finmap.mem_keys, Finmap.mem_insert]

theorem keys_putAll (l : List (String × String)) (s : Source) :
    (putAll s l).keys = s.keys ∪ (l.map Prod.fst).toFinset := by
  induction l generalizing s with
  | nil => simp [putAll]
  | cons kv rest ih =>
    rw [putAll_cons, ih, keys_put]
    ext a
    simp only [Finset.mem_union, Finset.mem_insert, List.map_cons, List.toFinset_cons]
    tauto

theorem mem_putAll {l : List (String × String)} {s : Source} {k : String} :
    k ∈ putAll s l ↔ k ∈ s ∨ ∃ x, (k, x) ∈ l := by
  rw [← Finmap.mem_keys, keys_putAll]
  simp [Finmap.mem_keys]

/-! ## Chains of single-entry mappings -/

theorem leaves_chain (ks : List String) (x : String) : (chain ks x).leaves = [(ks, x)] := by
  induction ks with
  | nil => rfl
  | cons k rest ih => simp [chain, Value.leaves, leavesEntries, ih]

theorem prepareData_chain (d : String) (s : Source) (ks : List String) (x : String) :
    prepareData d s (chain ks x) [] "" = put s (join (ks.filter fun k => k ≠ "") d) x := by
  rw [prepareData_root]
  simp [entries, leaves_chain, compose, putAll]

theorem put_empty_eq_singleton (k x : String) :
    put ∅ k x = @Finmap.singleton String (fun _ => String) k x := by
  apply Finmap.ext_lookup
  intro a
  rw [lookup_put]
  by_cases h : a = k
  · subst h; simp [Finmap.lookup_singleton_eq]
  · have : a ∉ @Finmap.singleton String (fun _ => String) k x := by
      simp [Finmap.mem_singleton, h]
    simp [h, Finmap.lookup_eq_none.mpr this]

theorem filter_nonempty_of_all {ks : List String} (h : ∀ k ∈ ks, k ≠ "") :
    ks.filter (fun k => k ≠ "") = ks := by
  rw [List.filter_eq_self]
  intro k hk
  simpa using h k hk

/-- C11, as stated, fails: the chain `{"a": {"": "x"}}` flattened with `"."` has the single
entry `"a" -> "x"`, not `"a." -> "x"`: the empty second key adds no segment. -/
theorem chain_key_counterexample :
    prepareData "." ∅ (chain ["a", ""] "x") [] "" =
      @Finmap.singleton String (fun _ => String) "a" "x" ∧
    join ["a", ""] "." = "a." ∧
    prepareData "." ∅ (chain ["a", ""] "x") [] "" ≠
      @Finmap.singleton String (fun _ => String) (join ["a", ""] ".") "x" ∧
    Source.Get (prepareData "." ∅ (chain ["a", ""] "x") [] "") (join ["a", ""] ".") ≠ "x" := by
  decide

/-- C11, amended: flattening the chain `{k1: {k2: ... {kn: x}}}` into an empty store yields
exactly one entry, with value `x` and as key the join with `d` of the non-empty keys among
`k1..kn`; this is `k1 + d + k2 + d + ... + d + kn` when every key is non-empty. -/
theorem chain_key (ks : List String) (x d : String) :
    prepareData d ∅ (chain ks x) [] "" =
      @Finmap.singleton String (fun _ => String) (join (ks.filter fun k => k ≠ "") d) x ∧
    (prepareData d ∅ (chain ks x) [] "").keys.card = 1 ∧
    ((∀ k ∈ ks, k ≠ "") →
      prepareData d ∅ (chain ks x) [] "" =
        @Finmap.singleton String (fun _ => String) (join ks d) x) ∧
    (∀ k k' rest, join (k :: k' :: rest) d = k ++ d ++ join (k' :: rest) d) := by
  have h : prepareData d ∅ (chain ks x) [] "" =
      @Finmap.singleton String (fun _ => String) (join (ks.filter fun k => k ≠ "") d) x := by
    rw [prepareData_chain, put_empty_eq_singleton]
  refine ⟨h, ?_, ?_, fun _ _ _ => rfl⟩
  · rw [h, Finmap.keys_singleton, Finset.card_singleton]
  · intro hne
    rw [h, filter_nonempty_of_all hne]

/-- Witness for C11: the chain `{"a": {"b": {"c": "x"}}}` with delimiter `"/"`. -/
theorem chain_key_witness :
    (∀ k ∈ ["a", "b", "c"], k ≠ "") ∧
    prepareData "/" ∅ (chain ["a", "b", "c"] "x") [] "" =
      @Finmap.singleton String (fun _ => String) "a/b/c" "x" :=
  ⟨by decide, (chain_key ["a", "b", "c"] "x" "/").2.2.1 (by decide)⟩

/-! ## A fresh store -/

/-- C12: `NewSource` returns a store with no entries (a total function, it cannot fail);
on it `Get(k) == k` for every key and `GetList(ks...) == ks` for every list of keys. -/
theorem newSource_empty :
    NewSource = ∅ ∧ NewSource.keys = ∅ ∧ (∀ k, k ∉ NewSource) ∧
    (∀ k, Source.Get NewSource k = k) ∧
    (∀ ks, Source.GetList NewSource ks = ks) := by
  refine ⟨rfl, rfl, fun k => Finmap.not_mem_empty, fun k => ?_, fun ks => ?_⟩
  · simp [Source.Get, GoSource.get, NewSource, Finmap.lookup_empty]
  · have hg : GoSource.get NewSource = id := by
      funext k
      simp [GoSource.get, NewSource, Finmap.lookup_empty]
    simp [Source.GetList, getList_eq_map, hg]

/-! ## The package-level functions -/

/-- C13: the package-level `Get`, `GetList`, `FromData` and `FromFile` return what the
methods return on a store with the contents of the package store, and leave the package
store with the contents the method leaves in that store; the delimiter is untouched. -/
theorem package_level_same (env : Env) (g : Globals) :
    (∀ k, Get g k = Source.Get g.source k) ∧
    (∀ ks, GetList g ks = Source.GetList g.source ks) ∧
    (∀ data f, (FromData env g data f).1 = (Source.FromData env g g.source data f).1 ∧
      (FromData env g data f).2.source = (Source.FromData env g g.source data f).2 ∧
      (FromData env g data f).2.delimiter = g.delimiter) ∧
    (∀ path f, (FromFile env g path f).1 = (Source.FromFile env g g.source path f).1 ∧
      (FromFile env g path f).2.source = (Source.FromFile env g g.source path f).2 ∧
      (FromFile env g path f).2.delimiter = g.delimiter) := by
  refine ⟨fun _ => rfl, fun _ => rfl, fun _ _ => ⟨rfl, rfl, rfl⟩, ?_⟩
  intro path f
  simp only [FromFile, Source.FromFile]
  cases readFile env path with
  | error e => exact ⟨rfl, rfl, rfl⟩
  | ok data => exact ⟨rfl, rfl, rfl⟩

/-! ## What a flattening changes -/

/-- C14: flattening `v` into `s` only adds or overwrites entries: (a) the keys afterwards
are the keys of `s` together with the composite keys of the string leaves of `v`; (b) every
composite key of `v` is mapped to the value of a string leaf of `v` with that composite
key; (c) every other key has the value it had in `s`; and no key of `s` is removed. -/
theorem flatten_adds_or_overwrites (v : Value) (d : String) (s : Source) :
    (prepareData d s v [] "").keys =
      s.keys ∪ (v.leaves.map fun px => compose d [] px.1).toFinset ∧
    (∀ p x, (p, x) ∈ v.leaves → ∃ p' x', (p', x') ∈ v.leaves ∧
      compose d [] p' = compose d [] p ∧
      Finmap.lookup (compose d [] p) (prepareData d s v [] "") = some x') ∧
    (∀ k, (∀ p x, (p, x) ∈ v.leaves → compose d [] p ≠ k) →
      Finmap.lookup k (prepareData d s v [] "") = Finmap.lookup k s) ∧
    (∀ k, k ∈ s → k ∈ prepareData d s v [] "") := by
  refine ⟨?_, ?_, ?_, ?_⟩
  · rw [prepareData_root, keys_putAll]
    simp only [entries, List.map_map]
    rfl
  · intro p x hx
    rw [prepareData_root, lookup_putAll]
    cases hl : lastVal (entries d [] v) (compose d [] p) with
    | none => exact absurd (mem_entries.mpr ⟨p, hx, rfl⟩) (lastVal_eq_none.mp hl x)
    | some y =>
      obtain ⟨p', hp', hk⟩ := mem_entries.mp (lastVal_mem hl)
      exact ⟨p', y, hp', hk, rfl⟩
  · intro k hk
    rw [prepareData_root, lookup_putAll]
    have hl : lastVal (entries d [] v) k = none := by
      rw [lastVal_eq_none]
      intro x hx
      obtain ⟨p, hp, hpk⟩ := mem_entries.mp hx
      exact hk p x hp hpk
    rw [hl]
  · intro k hk
    rw [prepareData_root, mem_putAll]
    exact Or.inl hk

/-- Witness for C14: `{"a": {"b": "hello", "c": "world"}}` flattened with `"."` into the
store `{"a.b": "old", "z": "kept"}`. -/
theorem flatten_adds_or_overwrites_witness :
    (["a", "b"], "hello") ∈ helloWorld.leaves ∧
    (∃ p' x', (p', x') ∈ helloWorld.leaves ∧ compose "." [] p' = compose "." [] ["a", "b"] ∧
      Finmap.lookup (compose "." [] ["a", "b"])
        (prepareData "." (put (put ∅ "a.b" "old") "z" "kept") helloWorld [] "") = some x') ∧
    (∀ p x, (p, x) ∈ helloWorld.leaves → compose "." [] p ≠ "z") ∧
    Finmap.lookup "z" (prepareData "." (put (put ∅ "a.b" "old") "z" "kept") helloWorld [] "") =
      Finmap.lookup "z" (put (put ∅ "a.b" "old") "z" "kept") ∧
    "z" ∈ put (put ∅ "a.b" "old") "z" "kept" ∧
    "z" ∈ prepareData "." (put (put ∅ "a.b" "old") "z" "kept") helloWorld [] "" :=
  have hz : ∀ p x, (p, x) ∈ helloWorld.leaves → compose "." [] p ≠ "z" := by
    intro p x h
    simp only [helloWorld, Value.leaves, leavesEntries, List.map_cons, List.map_nil,
      List.append_nil, List.singleton_append, List.mem_cons, Prod.mk.injEq,
      List.mem_nil_iff, or_false] at h
    rcases h with ⟨rfl, rfl⟩ | ⟨rfl, rfl⟩ <;> decide
  ⟨by decide,
   (flatten_adds_or_overwrites helloWorld "." (put (put ∅ "a.b" "old") "z" "kept")).2.1
     ["a", "b"] "hello" (by decide),
   hz,
   (flatten_adds_or_overwrites helloWorld "." (put (put ∅ "a.b" "old") "z" "kept")).2.2.1
     "z" hz,
   by decide,
   (flatten_adds_or_overwrites helloWorld "." (put (put ∅ "a.b" "old") "z" "kept")).2.2.2
     "z" (by decide)⟩

/-! ## The empty key -/

/-- C15: a segment is appended only for a non-empty key. Flattening `v` at path `p` with
the key `""` is flattening the leaves of `v` directly below `p`; an entry with the empty
key adds no segment, so `{"": v}` flattens as `v` does; a non-empty key is one more
segment of the path. `{"a": {"": "x"}}` with `"."` yields the single entry `"a" -> "x"`
and `{"": "x"}` yields `"" -> "x"`. -/
theorem empty_key_no_segment (v : Value) (p : List String) (d : String) (s : Source) :
    prepareData d s v p "" = putAll s (entries d p v) ∧
    (∀ x, prepareData d s (.str x) p "" = put s (join p d) x) ∧
    (∀ m, prepareData d s (.obj m) p "" = prepareEntries d s m p) ∧
    (∀ key, prepareData d s (.obj [("", v)]) p key = prepareData d s v p key) ∧
    (∀ key, key ≠ "" → prepareData d s v p key = prepareData d s v (p ++ [key]) "") ∧
    prepareData "." ∅ (.obj [("a", .obj [("", .str "x")])]) [] "" =
      @Finmap.singleton String (fun _ => String) "a" "x" ∧
    prepareData "." ∅ (.obj [("", .str "x")]) [] "" =
      @Finmap.singleton String (fun _ => String) "" "x" := by
  refine ⟨?_, ?_, ?_, ?_, ?_, by decide, by decide⟩
  · rw [prepareData_eq]; rfl
  · intro x; rfl
  · intro m; rfl
  · intro key
    rw [prepareData_eq, prepareData_eq, entries_obj_cons, entries_obj_nil]
    simp
  · intro key hk
    rw [prepareData_eq, prepareData_eq]
    simp [hk]

/-- Witness for C15: the key `"b"` below the path `["a"]` is the path `["a", "b"]`. -/
theorem empty_key_no_segment_witness :
    "b" ≠ "" ∧
    prepareData "." ∅ (.str "x") ["a"] "b" = prepareData "." ∅ (.str "x") (["a"] ++ ["b"]) "" :=
  ⟨by decide, (empty_key_no_segment (.str "x") ["a"] "." ∅).2.2.2.2.1 "b" (by decide)⟩

/-! ## Slices: what `append` in place does to the callers -/

theorem Frame.refl (p : Slice) (h : Heap) : Frame p h h :=
  ⟨le_refl _, fun _ _ _ _ => rfl⟩

theorem Frame.trans {p : Slice} {h h₁ h₂ : Heap} (f₁ : Frame p h h₁) (f₂ : Frame p h₁ h₂) :
    Frame p h h₂ :=
  ⟨le_trans f₁.1 f₂.1, fun a i ha hn =>
    (f₂.2 a i (lt_of_lt_of_le ha f₁.1) hn).trans (f₁.2 a i ha hn)⟩

/-- A call that only writes into the spare capacity of `p` leaves the elements of `p`. -/
theorem Frame.elems_eq {p : Slice} {h h' : Heap} (hv : p.Valid h) (f : Frame p h h') :
    p.elems h' = p.elems h := by
  unfold Slice.elems
  apply List.map_congr_left
  intro i hi
  have hi' : i < p.len := List.mem_range.mp hi
  have hc : 0 < p.cap := by have := hv.1; omega
  exact f.2 p.arr i (hv.2.1 hc) (fun hcon => by omega)

theorem Frame.valid {p : Slice} {h h' : Heap} (hv : p.Valid h) (f : Frame p h h') :
    p.Valid h' :=
  ⟨hv.1, fun hc => lt_of_lt_of_le (hv.2.1 hc) f.1, hv.2.2⟩

theorem appendSlice_valid (slack : Nat → Nat) {h : Heap} {p : Slice} (key : String)
    (hv : p.Valid h) : (appendSlice slack h p key).2.Valid (appendSlice slack h p key).1 := by
  unfold appendSlice
  split
  · next hlt => exact ⟨hlt, hv.2.1, fun hn => by cases hn⟩
  · exact ⟨by simp, fun _ => by simp, fun hn => by cases hn⟩

theorem appendSlice_elems (slack : Nat → Nat) (h : Heap) (p : Slice) (key : String) :
    (appendSlice slack h p key).2.elems (appendSlice slack h p key).1 = p.elems h ++ [key] := by
  unfold appendSlice
  split
  · simp only [Slice.elems, List.range_succ, List.map_append, List.map_cons, List.map_nil,
      Function.update_same]
    congr 1
    apply List.map_congr_left
    intro i hi
    have hi' : i < p.len := List.mem_range.mp hi
    rw [Function.update_noteq (by omega)]
  · simp only [Slice.elems, List.range_succ, List.map_append, List.map_cons, List.map_nil,
      Function.update_same, lt_self_iff_false, if_false, if_true]
    congr 1
    apply List.map_congr_left
    intro i hi
    have hi' : i < p.len := List.mem_range.mp hi
    simp [hi']

/-- What a callee does within the slice it got from `append` stays within the spare
capacity of the slice `append` was applied to. -/
theorem appendSlice_frame (slack : Nat → Nat) {h h' : Heap} {p : Slice} (key : String)
    (f : Frame (appendSlice slack h p key).2 (appendSlice slack h p key).1 h') :
    Frame p h h' := by
  unfold appendSlice at f
  split at f
  · next hlt =>
    refine ⟨f.1, fun a i ha hn => ?_⟩
    rw [f.2 a i ha (fun hcon => hn ⟨hcon.1, by have := hcon.2.1; simp only at this; omega,
      hcon.2.2⟩)]
    simp only
    by_cases hap : a = p.arr
    · subst hap
      rw [Function.update_same, Function.update_noteq]
      intro hil
      exact hn ⟨rfl, by omega, by omega⟩
    · rw [Function.update_noteq hap]
  · refine ⟨by have := f.1; simp only at this; omega, fun a i ha _ => ?_⟩
    have hne : a ≠ h.next := by omega
    rw [f.2 a i (by simp only; omega) (fun hcon => hne hcon.1)]
    simp only
    rw [Function.update_noteq hne]

/-- The first two statements of `prepareData` on a slice header: the `nil` test and the
`append` for a non-empty key. The resulting header fits the resulting memory, its elements
are those of `path` followed by the key, and whatever is written later into its spare
capacity stays within the spare capacity of `path`. -/
theorem prelude_spec (slack : Nat → Nat) (h : Heap) (p : Slice) (key : String)
    (hv : p.Valid h) :
    ∃ h₁ p₁,
      (if key ≠ "" then appendSlice slack h (if p.isNil = true then Slice.empty else p) key
        else (h, if p.isNil = true then Slice.empty else p)) = (h₁, p₁) ∧
      p₁.Valid h₁ ∧
      p₁.elems h₁ = (if key ≠ "" then p.elems h ++ [key] else p.elems h) ∧
      ∀ h', Frame p₁ h₁ h' → Frame p h h' := by
  have h0 : ∃ p₀, (if p.isNil = true then Slice.empty else p) = p₀ ∧ p₀.Valid h ∧
      p₀.elems h = p.elems h ∧ ∀ h', Frame p₀ h h' → Frame p h h' := by
    by_cases hn : p.isNil = true
    · have hc : p.cap = 0 := hv.2.2 hn
      have hl : p.len = 0 := by have := hv.1; omega
      refine ⟨Slice.empty, by simp [hn], ?_, ?_, ?_⟩
      · exact ⟨le_refl _, fun hpos => absurd hpos (by simp [Slice.empty]), fun _ => rfl⟩
      · simp [Slice.elems, Slice.empty, hl]
      · intro h' f
        exact ⟨f.1, fun a i ha _ => f.2 a i ha (fun hcon => by
          have := hcon.2.2
          simp [Slice.empty] at this)⟩
    · exact ⟨p, by simp [hn], hv, rfl, fun _ f => f⟩
  obtain ⟨p₀, hp₀, hv₀, he₀, hf₀⟩ := h0
  rw [hp₀]
  by_cases hk : key = ""
  · refine ⟨h, p₀, by simp [hk], hv₀, by simp [hk, he₀], hf₀⟩
  · refine ⟨(appendSlice slack h p₀ key).1, (appendSlice slack h p₀ key).2, by simp [hk],
      appendSlice_valid slack key hv₀, ?_, ?_⟩
    · rw [appendSlice_elems, he₀]
      simp [hk]
    · intro h' f
      exact hf₀ h' (appendSlice_frame slack key f)

mutual
/-- On slice headers `prepareData` fills the store as it does on lists, and writes only
into the spare capacity of the slice it was given. -/
theorem prepareDataMem_spec (slack : Nat → Nat) (d : String) (v : Value) (h : Heap)
    (s : Source) (p : Slice) (key : String) (hv : p.Valid h) :
    (prepareDataMem slack d (h, s) v p key).2 = prepareData d s v (p.elems h) key ∧
    Frame p h (prepareDataMem slack d (h, s) v p key).1 := by
  obtain ⟨h₁, p₁, hE, hv₁, he₁, hf₁⟩ := prelude_spec slack h p key hv
  cases v with
  | str x =>
    simp only [prepareDataMem, prepareData, hE, he₁]
    exact ⟨trivial, hf₁ h₁ (Frame.refl _ _)⟩
  | obj m =>
    simp only [prepareDataMem, prepareData, hE]
    have ih := prepareEntriesMem_spec slack d m h₁ s p₁ hv₁
    rw [he₁] at ih
    exact ⟨ih.1, hf₁ _ ih.2⟩
  | num n =>
    simp only [prepareDataMem, prepareData, hE]
    exact ⟨trivial, hf₁ h₁ (Frame.refl _ _)⟩
  | bool b =>
    simp only [prepareDataMem, prepareData, hE]
    exact ⟨trivial, hf₁ h₁ (Frame.refl _ _)⟩
  | list l =>
    simp only [prepareDataMem, prepareData, hE]
    exact ⟨trivial, hf₁ h₁ (Frame.refl _ _)⟩
  | null =>
    simp only [prepareDataMem, prepareData, hE]
    exact ⟨trivial, hf₁ h₁ (Frame.refl _ _)⟩
theorem prepareEntriesMem_spec (slack : Nat → Nat) (d : String) (m : List (String × Value))
    (h : Heap) (s : Source) (p : Slice) (hv : p.Valid h) :
    (prepareEntriesMem slack d (h, s) m p).2 = prepareEntries d s m (p.elems h) ∧
    Frame p h (prepareEntriesMem slack d (h, s) m p).1 := by
  match m with
  | [] =>
    simp only [prepareEntriesMem, prepareEntries]
    exact ⟨trivial, Frame.refl _ _⟩
  | (k, v) :: rest =>
    have h₁ := prepareDataMem_spec slack d v h s p k hv
    have h₂ := prepareEntriesMem_spec slack d rest (prepareDataMem slack d (h, s) v p k).1
      (prepareDataMem slack d (h, s) v p k).2 p (h₁.2.valid hv)
    rw [h₁.2.elems_eq hv] at h₂
    simp only [prepareEntriesMem, prepareEntries]
    rw [← h₁.1]
    exact ⟨h₂.1, h₁.2.trans h₂.2⟩
end

/-! ## Siblings -/

theorem prepareEntries_eq_foldl (d : String) (m : List (String × Value)) (s : Source)
    (p : List String) :
    prepareEntries d s m p = m.foldl (fun acc kc => prepareData d acc kc.2 p kc.1) s := by
  induction m generalizing s with
  | nil => simp [prepareEntries]
  | cons kc rest ih =>
    obtain ⟨k, c⟩ := kc
    simp only [prepareEntries, List.foldl_cons]
    exact ih _

/-- C16: flattening a mapping `m` at path `p` is flattening, one after another in the
visiting order, the child of each entry `(k, c)` at path `p` with key `k`; the keys a child
writes are built from `p`, from `k` alone (from nothing when `k` is empty) and from the
keys on the way to its own leaves, never from a sibling. This also holds on slice headers,
where `append` may write the key into a backing array that siblings share: the store is
the one computed on lists, and the elements of the slice the caller passed are unchanged
when the call returns. -/
theorem siblings_isolated (m : List (String × Value)) (p : List String) (d : String)
    (s : Source) :
    prepareData d s (.obj m) p "" =
      m.foldl (fun acc kc => prepareData d acc kc.2 p kc.1) s ∧
    (∀ acc k c, prepareData d acc c p k =
      putAll acc (c.leaves.map fun qx =>
        (join ((if k ≠ "" then p ++ [k] else p) ++ qx.1.filter (fun k' => k' ≠ "")) d,
          qx.2))) ∧
    (∀ slack h (path : Slice) key v, path.Valid h →
      (prepareDataMem slack d (h, s) v path key).2 = prepareData d s v (path.elems h) key ∧
      path.elems (prepareDataMem slack d (h, s) v path key).1 = path.elems h ∧
      path.Valid (prepareDataMem slack d (h, s) v path key).1) := by
  refine ⟨?_, ?_, ?_⟩
  · simp only [prepareData, ne_eq, not_true_eq_false, if_false]
    exact prepareEntries_eq_foldl d m s p
  · intro acc k c
    rw [prepareData_eq]
    rfl
  · intro slack h path key v hv
    have hs := prepareDataMem_spec slack d v h s path key hv
    exact ⟨hs.1, hs.2.elems_eq hv, hs.2.valid hv⟩

/-- Witness for C16: `{"a": {"b": "hello", "c": "world"}}` flattened below the slice
`["root"]` that has spare capacity, so that `"a"`, `"b"` and `"c"` are written in place. -/
theorem siblings_isolated_witness :
    rootSlice.Valid rootHeap ∧
    (prepareDataMem doubling "." (rootHeap, ∅) helloWorld rootSlice "").2 =
      put (put ∅ "root.a.b" "hello") "root.a.c" "world" ∧
    rootSlice.elems (prepareDataMem doubling "." (rootHeap, ∅) helloWorld rootSlice "").1 =
      ["root"] ∧
    (List.range 4).map
        ((prepareDataMem doubling "." (rootHeap, ∅) helloWorld rootSlice "").1.cells 0) =
      ["root", "a", "c", ""] :=
  have hv : rootSlice.Valid rootHeap :=
    ⟨by decide, fun _ => by decide, fun hn => by cases hn⟩
  have hs := (siblings_isolated [] [] "." ∅).2.2 doubling rootHeap rootSlice "" helloWorld hv
  ⟨hv, hs.1.trans (by decide), hs.2.1.trans (by decide), by decide⟩

/-! ## Termination -/

theorem nodes_lt_of_mem {m : List (String × Value)} {k : String} {c : Value}
    (h : (k, c) ∈ m) : c.nodes ≤ nodesEntries m := by
  induction m with
  | nil => cases h
  | cons kv rest ih =>
    obtain ⟨k', c'⟩ := kv
    simp only [nodesEntries]
    rcases List.mem_cons.mp h with h | h
    · cases h; omega
    · have := ih h; omega

mutual
theorem leaves_length_le_nodes (v : Value) : v.leaves.length ≤ v.nodes := by
  cases v with
  | str x => simp [Value.leaves, Value.nodes]
  | obj m =>
    have := leavesEntries_length_le m
    simp only [Value.leaves, Value.nodes]
    omega
  | num n => simp [Value.leaves]
  | bool b => simp [Value.leaves]
  | list l => simp [Value.leaves]
  | null => simp [Value.leaves]
theorem leavesEntries_length_le (m : List (String × Value)) :
    (leavesEntries m).length ≤ nodesEntries m := by
  match m with
  | [] => simp [leavesEntries]
  | (k, v) :: rest =>
    have h₁ := leaves_length_le_nodes v
    have h₂ := leavesEntries_length_le rest
    simp only [leavesEntries, nodesEntries, List.length_append, List.length_map]
    omega
end

/-- C17: flattening is total. `prepareData` is defined by recursion on the value, each
call descending into the strictly smaller values held by the entries of a mapping; for
every value, path, key, delimiter and store it returns the store obtained by finitely many
`put` calls, at most one per value visited; and a load whose decoding succeeds returns no
error and the flattened store. -/
theorem flatten_total (v : Value) (d : String) (s : Source) (path : List String)
    (key : String) :
    (∀ m k c, (k, c) ∈ m → c.nodes < (Value.obj m).nodes) ∧
    (∃ l : List (String × String), prepareData d s v path key = putAll s l ∧
      l.length ≤ v.nodes) ∧
    (∀ env data (f : Option UnmarshalFunc), (f.getD env.jsonUnmarshal) data = .ok v →
      unmarshalData env d s data f = (none, prepareData d s v [] "")) := by
  refine ⟨?_, ?_, ?_⟩
  · intro m k c h
    have := nodes_lt_of_mem h
    simp only [Value.nodes]
    omega
  · refine ⟨entries d (if key ≠ "" then path ++ [key] else path) v, prepareData_eq d s v path key, ?_⟩
    simpa [entries] using leaves_length_le_nodes v
  · intro env data f h
    cases f with
    | none =>
      simp only [Option.getD] at h
      simp only [unmarshalData, h]
    | some f =>
      simp only [Option.getD] at h
      simp only [unmarshalData, h]

/-- Witness for C17: the four-level document `{"a": {"b": {"c": {"d": "1", "e": "2"}}}}`. -/
theorem flatten_total_witness :
    ("c", Value.obj [("d", .str "1"), ("e", .str "2")]) ∈
      [("c", Value.obj [("d", .str "1"), ("e", .str "2")])] ∧
    (Value.obj [("d", .str "1"), ("e", .str "2")]).nodes <
      (Value.obj [("c", Value.obj [("d", .str "1"), ("e", .str "2")])]).nodes ∧
    sampleUnmarshal [123] = .ok helloWorld ∧
    unmarshalData sampleEnv "." ∅ [123] none = (none, prepareData "." ∅ helloWorld [] "") :=
  ⟨by simp,
   (flatten_total deepDoc "." ∅ [] "").1 _ "c" _ (by simp),
   rfl,
   (flatten_total helloWorld "." ∅ [] "").2.2 sampleEnv [123] none rfl⟩

/-! ## Delimiters that cannot overlap themselves -/

/-- What `overlapFree` computes: a non-empty list that is both a prefix and a suffix of the
delimiter is the delimiter. -/
theorem overlapFree_spec {d : String} (h : overlapFree d = true) (e : List Char)
    (hne : e ≠ []) (hp : e <+: d.data) (hs : e <:+ d.data) : e = d.data := by
  by_contra hed
  have hle : e.length ≤ d.data.length := hp.length_le
  have hlt : e.length < d.data.length := by
    rcases Nat.lt_or_ge e.length d.data.length with h' | h'
    · exact h'
    · exact absurd (hp.eq_of_length (by omega)) hed
  have hpos : 0 < e.length := List.length_pos.mpr hne
  have hall := List.all_eq_true.mp h e.length (List.mem_range.mpr hlt)
  have h1 : e = d.data.take e.length := List.prefix_iff_eq_take.mp hp
  have h2 : e = d.data.drop (d.data.length - e.length) := List.suffix_iff_eq_drop.mp hs
  simp only [Bool.or_eq_true, beq_iff_eq, bne_iff_ne, ne_eq] at hall
  rcases hall with h0 | hne'
  · omega
  · exact hne' (h1.symm.trans h2)

/-- When the delimiter stands after `a` and also after the longer `a ++ c`, with no
occurrence inside `a ++ c`, then `c` is empty. -/
theorem sep_shift {d : String} (hd : overlapFree d = true) (a c r₁ r₂ : List Char)
    (hac : ¬ d.data <:+: a ++ c) (h : d.data ++ r₁ = c ++ (d.data ++ r₂)) : c = [] := by
  rcases List.append_eq_append_iff.mp h with ⟨e, hc, _⟩ | ⟨e, hde, hr⟩
  · exact absurd ⟨a, e, by rw [hc, List.append_assoc]⟩ hac
  · have hsuf : e <:+ d.data := ⟨c, hde.symm⟩
    have hpre : e <+: d.data := by
      have h₁ : e <+: d.data ++ r₂ := ⟨r₁, hr.symm⟩
      exact List.prefix_of_prefix_length_le h₁ (List.prefix_append _ _) hsuf.length_le
    by_cases he : e = []
    · subst he
      rw [List.append_nil] at hde
      exact absurd ⟨a, [], by rw [hde, List.append_nil]⟩ hac
    · have hed := overlapFree_spec hd e he hpre hsuf
      have hlen := congrArg List.length hde
      rw [List.length_append, hed] at hlen
      exact List.length_eq_zero.mp (by omega)

/-- The first segment before a delimiter is determined by the joined string. -/
theorem sep_unique {d : String} (hd : overlapFree d = true) (a b r₁ r₂ : List Char)
    (ha : ¬ d.data <:+: a) (hb : ¬ d.data <:+: b)
    (h : a ++ (d.data ++ r₁) = b ++ (d.data ++ r₂)) : a = b := by
  rcases List.append_eq_append_iff.mp h with ⟨c, hbc, hr⟩ | ⟨c, hac, hr⟩
  · have hc : c = [] := sep_shift hd a c r₁ r₂ (hbc ▸ hb) hr
    rw [hbc, hc, List.append_nil]
  · have hc : c = [] := sep_shift hd b c r₂ r₁ (hac ▸ ha) hr
    rw [hac, hc, List.append_nil]

theorem join_cons_cons_data (a b : String) (rest : List String) (d : String) :
    (join (a :: b :: rest) d).data = a.data ++ (d.data ++ (join (b :: rest) d).data) := by
  simp [join, String.data_append]

theorem join_cons_ne_empty {a : String} (rest : List String) (d : String) (ha : a ≠ "") :
    join (a :: rest) d ≠ "" := by
  intro h
  apply ha
  cases rest with
  | nil => exact h
  | cons b rest' =>
    have h' := congrArg String.data h
    rw [join_cons_cons_data] at h'
    have : a.data = [] := (List.append_eq_nil.mp h').1
    exact String.ext this

/-- Joining with a delimiter that cannot overlap itself is one-to-one on lists of non-empty
segments that do not contain the delimiter. -/
theorem join_injective {d : String} (hd : overlapFree d = true) :
    ∀ p q : List String,
      (∀ k ∈ p, k ≠ "" ∧ ¬ d.data <:+: k.data) →
      (∀ k ∈ q, k ≠ "" ∧ ¬ d.data <:+: k.data) →
      join p d = join q d → p = q := by
  intro p
  induction p with
  | nil =>
    intro q _ hq h
    cases q with
    | nil => rfl
    | cons b q' => exact absurd h.symm (join_cons_ne_empty q' d (hq b (List.mem_cons_self _ _)).1)
  | cons a p' ih =>
    intro q hp hq h
    cases q with
    | nil => exact absurd h (join_cons_ne_empty p' d (hp a (List.mem_cons_self _ _)).1)
    | cons b q' =>
      have hpa := hp a (List.mem_cons_self _ _)
      have hqb := hq b (List.mem_cons_self _ _)
      cases p' with
      | nil =>
        cases q' with
        | nil => simp only [join] at h; rw [h]
        | cons b' q'' =>
          have h' := congrArg String.data h
          rw [join_cons_cons_data] at h'
          simp only [join] at h'
          exact absurd ⟨b.data, (join (b' :: q'') d).data, by rw [h', List.append_assoc]⟩ hpa.2
      | cons a' p'' =>
        cases q' with
        | nil =>
          have h' := congrArg String.data h
          rw [join_cons_cons_data] at h'
          simp only [join] at h'
          exact absurd ⟨a.data, (join (a' :: p'') d).data, by rw [← h', List.append_assoc]⟩ hqb.2
        | cons b' q'' =>
          have h' := congrArg String.data h
          rw [join_cons_cons_data, join_cons_cons_data] at h'
          have hab : a.data = b.data := sep_unique hd _ _ _ _ hpa.2 hqb.2 h'
          rw [hab] at h'
          have hrest : join (a' :: p'') d = join (b' :: q'') d :=
            String.ext (List.append_cancel_left (List.append_cancel_left h'))
          have := ih (b' :: q'') (fun k hk => hp k (List.mem_cons_of_mem _ hk))
            (fun k hk => hq k (List.mem_cons_of_mem _ hk)) hrest
          rw [String.ext hab, this]

theorem overlapFree_singleton (c : Char) : overlapFree (String.singleton c) = true := by
  simp [overlapFree, String.singleton, String.push]

/-! ## Well-formed keys -/

mutual
theorem keysOk_leaves (d : String) (v : Value) (h : v.keysOk d = true) :
    ∀ p x, (p, x) ∈ v.leaves → ∀ k ∈ p, k ≠ "" ∧ ¬ d.data <:+: k.data := by
  cases v with
  | str x =>
    intro p y hp k hk
    simp only [Value.leaves, List.mem_singleton, Prod.mk.injEq] at hp
    rw [hp.1] at hk
    cases hk
  | obj m =>
    simp only [Value.keysOk] at h
    simpa only [Value.leaves] using keysOk_leavesEntries d m h
  | num n => intro p x hp; simp [Value.leaves] at hp
  | bool b => intro p x hp; simp [Value.leaves] at hp
  | list l => intro p x hp; simp [Value.leaves] at hp
  | null => intro p x hp; simp [Value.leaves] at hp
theorem keysOk_leavesEntries (d : String) (m : List (String × Value))
    (h : keysOkEntries d m = true) :
    ∀ p x, (p, x) ∈ leavesEntries m → ∀ k ∈ p, k ≠ "" ∧ ¬ d.data <:+: k.data := by
  match m with
  | [] => intro p x hp; simp [leavesEntries] at hp
  | (k₀, v) :: rest =>
    simp only [keysOkEntries, Bool.and_eq_true, decide_eq_true_eq, Bool.not_eq_true',
      decide_eq_false_iff_not] at h
    obtain ⟨⟨hk₀, hd₀⟩, hv, hrest⟩ := h
    intro p x hp k hk
    simp only [leavesEntries, List.mem_append, List.mem_map, Prod.mk.injEq, Prod.exists] at hp
    rcases hp with ⟨q, y, hq, rfl, rfl⟩ | hp
    · rcases List.mem_cons.mp hk with rfl | hk'
      · exact ⟨hk₀, hd₀⟩
      · exact keysOk_leaves d v hv q y hq k hk'
    · exact keysOk_leavesEntries d rest hrest p x hp k hk
end

theorem leavesEntries_head {m : List (String × Value)} {p : List String} {x : String}
    (h : (p, x) ∈ leavesEntries m) : ∃ k q, p = k :: q ∧ k ∈ m.map Prod.fst := by
  induction m with
  | nil => simp [leavesEntries] at h
  | cons kv rest ih =>
    obtain ⟨k₀, v⟩ := kv
    simp only [leavesEntries, List.mem_append, List.mem_map, Prod.mk.injEq, Prod.exists] at h
    rcases h with ⟨q, y, _, rfl, rfl⟩ | h
    · exact ⟨k₀, q, rfl, by simp⟩
    · obtain ⟨k, q, hp, hk⟩ := ih h
      exact ⟨k, q, hp, by simp only [List.map_cons, List.mem_cons]; exact Or.inr hk⟩

mutual
/-- In a value whose mappings have pairwise distinct keys, no two string leaves have the
same path. -/
theorem wf_leaves_nodup (v : Value) (h : v.wf = true) : (v.leaves.map Prod.fst).Nodup := by
  cases v with
  | str x => simp [Value.leaves]
  | obj m =>
    simp only [Value.wf, Bool.and_eq_true, decide_eq_true_eq] at h
    simpa only [Value.leaves] using wf_leavesEntries_nodup m h.1 h.2
  | num n => simp [Value.leaves]
  | bool b => simp [Value.leaves]
  | list l => simp [Value.leaves]
  | null => simp [Value.leaves]
theorem wf_leavesEntries_nodup (m : List (String × Value)) (hk : (m.map Prod.fst).Nodup)
    (h : wfEntries m = true) : ((leavesEntries m).map Prod.fst).Nodup := by
  match m with
  | [] => simp [leavesEntries]
  | (k₀, v) :: rest =>
    simp only [wfEntries, Bool.and_eq_true] at h
    simp only [List.map_cons, List.nodup_cons] at hk
    simp only [leavesEntries, List.map_append, List.map_map]
    rw [List.nodup_append]
    refine ⟨?_, wf_leavesEntries_nodup rest hk.2 h.2, ?_⟩
    · have hv := wf_leaves_nodup v h.1
      have : (List.map (Prod.fst ∘ fun px : List String × String => (k₀ :: px.1, px.2)) v.leaves) =
          (v.leaves.map Prod.fst).map (fun q => k₀ :: q) := by
        simp [List.map_map, Function.comp]
      rw [this]
      exact hv.map (fun a b hab => List.tail_eq_of_cons_eq hab)
    · intro p hp₁ hp₂
      simp only [List.mem_map, Function.comp, Prod.exists] at hp₁
      obtain ⟨q, y, _, rfl⟩ := hp₁
      simp only [List.mem_map, Prod.exists, exists_and_right, exists_eq_right] at hp₂
      obtain ⟨x, hx⟩ := hp₂
      obtain ⟨k, q', hp, hkm⟩ := leavesEntries_head hx
      cases hp
      exact hk.1 hkm
end

/-! ## Collision freedom -/

theorem compose_eq_join {d : String} {p : List String} (h : ∀ k ∈ p, k ≠ "") :
    compose d [] p = join p d := by
  simp only [compose, List.nil_append]
  rw [filter_nonempty_of_all h]

theorem get_of_unique_leaf {v : Value} {d : String} (s : Source) {p : List String}
    {x : String} (hx : (p, x) ∈ v.leaves)
    (hu : ∀ p' x', (p', x') ∈ v.leaves → compose d [] p' = compose d [] p → x' = x) :
    GoSource.get (prepareData d s v [] "") (compose d [] p) = x := by
  have hl : lastVal (entries d [] v) (compose d [] p) = some x := by
    apply lastVal_of_unique (mem_entries.mpr ⟨p, hx, rfl⟩)
    intro y hy
    obtain ⟨p', hp', hk⟩ := mem_entries.mp hy
    exact hu p' y hp' hk
  simp [GoSource.get, prepareData_root, lookup_putAll, hl]

theorem prepareData_reorder {v v' : Value} {d : String} (s : Source) (hc : NoClash d v)
    (h : Reorder v v') : prepareData d s v [] "" = prepareData d s v' [] "" := by
  rw [prepareData_root, prepareData_root]
  apply putAll_congr
  · intro kv
    exact (h.entries_perm d []).mem_iff
  · intro k x y hx hy
    obtain ⟨p, hp, hpk⟩ := mem_entries.mp hx
    obtain ⟨p', hp', hpk'⟩ := mem_entries.mp hy
    exact hc p x p' y hp hp' (hpk.trans hpk'.symm)

/-- With a delimiter that cannot overlap itself, distinct paths of non-empty keys free of
the delimiter compose to distinct keys. -/
theorem compose_injOn {d : String} {v : Value} (hd : overlapFree d = true)
    (hk : v.keysOk d = true) {p p' : List String} {x x' : String}
    (hp : (p, x) ∈ v.leaves) (hp' : (p', x') ∈ v.leaves)
    (h : compose d [] p = compose d [] p') : p = p' := by
  have ok := keysOk_leaves d v hk p x hp
  have ok' := keysOk_leaves d v hk p' x' hp'
  rw [compose_eq_join fun k hk' => (ok k hk').1,
    compose_eq_join fun k hk' => (ok' k hk').1] at h
  exact join_injective hd p p' ok ok' h

theorem noClash_of_keysOk {d : String} {v : Value} (hd : overlapFree d = true)
    (hw : v.wf = true) (hk : v.keysOk d = true) : NoClash d v := by
  intro p x p' x' hp hp' h
  have hpp := compose_injOn hd hk hp hp' h
  subst hpp
  have := List.inj_on_of_nodup_map (wf_leaves_nodup v hw) hp hp' rfl
  exact (Prod.mk.inj this).2

/-- C18, as stated, fails: with the delimiter `"::"` the document
`{"x": {":y": "1"}, "x:": {"y": "2"}}` has non-empty keys, none containing `"::"`, yet both
leaves compose to `"x:::y"`: one entry for two leaves, `Get` answers `"2"` for the leaf
`"1"`, and the other visiting order leaves `"1"` in the store. -/
theorem wellFormed_keys_counterexample :
    "::" ≠ "" ∧ overlapDoc.wf = true ∧ overlapDoc.keysOk "::" = true ∧
    (["x", ":y"], "1") ∈ overlapDoc.leaves ∧ (["x:", "y"], "2") ∈ overlapDoc.leaves ∧
    compose "::" [] ["x", ":y"] = "x:::y" ∧ compose "::" [] ["x:", "y"] = "x:::y" ∧
    Source.Get (prepareData "::" ∅ overlapDoc [] "") "x:::y" = "2" ∧
    (prepareData "::" ∅ overlapDoc [] "").keys.card = 1 ∧ overlapDoc.leaves.length = 2 ∧
    Reorder overlapDoc overlapDocSwapped ∧
    prepareData "::" ∅ overlapDoc [] "" ≠ prepareData "::" ∅ overlapDocSwapped [] "" :=
  ⟨by decide, by decide, by decide, by decide, by decide, by decide, by decide, by decide,
   by decide, by decide, Reorder.perm (List.Perm.swap _ _ _), by decide⟩

/-- C18, amended: for every delimiter `d` of which no non-empty proper prefix is also a
suffix (every one-character delimiter is one) and every decoded value `v` in which every
mapping key is non-empty and does not contain `d`, distinct string leaves of `v` get
distinct composite keys; hence after flattening `v` into any store `Get(k) == x` for every
string leaf `x` with composite key `k`, flattening into an empty store adds as many entries
as `v` has string leaves, and the final store is the same for every visiting order. -/
theorem wellFormed_keys_collision_free (d : String) (v : Value)
    (hd : overlapFree d = true) (hw : v.wf = true) (hk : v.keysOk d = true) :
    (v.leaves.map fun px => compose d [] px.1).Nodup ∧
    (∀ p x, (p, x) ∈ v.leaves → compose d [] p = join p d) ∧
    (∀ s p x, (p, x) ∈ v.leaves → Source.Get (prepareData d s v [] "") (join p d) = x) ∧
    (prepareData d ∅ v [] "").keys.card = v.leaves.length ∧
    (∀ s v₁ v₂, Reorder v v₁ → Reorder v v₂ →
      prepareData d s v₁ [] "" = prepareData d s v₂ [] "") := by
  have hc : NoClash d v := noClash_of_keysOk hd hw hk
  have hj : ∀ p x, (p, x) ∈ v.leaves → compose d [] p = join p d := fun p x hp =>
    compose_eq_join fun k hk' => (keysOk_leaves d v hk p x hp k hk').1
  have hnd : (v.leaves.map fun px => compose d [] px.1).Nodup := by
    have : (v.leaves.map fun px => compose d [] px.1) =
        (v.leaves.map Prod.fst).map (compose d []) := by
      simp [List.map_map, Function.comp]
    rw [this]
    apply (wf_leaves_nodup v hw).map_on
    intro p hp p' hp' h
    simp only [List.mem_map, Prod.exists, exists_and_right, exists_eq_right] at hp hp'
    obtain ⟨x, hx⟩ := hp
    obtain ⟨x', hx'⟩ := hp'
    exact compose_injOn hd hk hx hx' h
  refine ⟨hnd, hj, ?_, ?_, ?_⟩
  · intro s p x hp
    rw [← hj p x hp]
    exact get_of_unique_leaf s hp fun p' x' hp' h => hc p' x' p x hp' hp h
  · rw [prepareData_root, keys_putAll]
    have : (entries d [] v).map Prod.fst = v.leaves.map fun px => compose d [] px.1 := by
      simp [entries, List.map_map, Function.comp]
    rw [this, Finmap.keys_empty, Finset.empty_union, List.toFinset_card_of_nodup hnd,
      List.length_map]
  · intro s v₁ v₂ h₁ h₂
    rw [← prepareData_reorder s hc h₁, ← prepareData_reorder s hc h₂]

/-- Witness for C18: `{"a": {"b": "hello", "c": "world"}}` with the delimiter `"."`. -/
theorem wellFormed_keys_collision_free_witness :
    overlapFree "." = true ∧ helloWorld.wf = true ∧ helloWorld.keysOk "." = true ∧
    (["a", "c"], "world") ∈ helloWorld.leaves ∧
    Source.Get (prepareData "." ∅ helloWorld [] "") "a.c" = "world" ∧
    (prepareData "." ∅ helloWorld [] "").keys.card = 2 :=
  ⟨by decide, by decide, by decide, by decide,
   (wellFormed_keys_collision_free "." helloWorld (by decide) (by decide) (by decide)).2.2.1
     ∅ ["a", "c"] "world" (by decide),
   (wellFormed_keys_collision_free "." helloWorld (by decide) (by decide)
     (by decide)).2.2.2.1⟩

/-! ## Flattening twice, each pass in its own visiting order -/

theorem prepareData_absorb_reordered (d : String) (s : Source) {v v₁ v₂ : Value}
    (h₁ : Reorder v v₁) (h₂ : Reorder v v₂) :
    prepareData d (prepareData d s v₁ [] "") v₂ [] "" = prepareData d s v₂ [] "" := by
  rw [prepareData_root d s v₁, prepareData_root d _ v₂, prepareData_root d s v₂]
  apply putAll_absorb
  intro k x hx
  exact ⟨x, (h₂.entries_perm d []).mem_iff.mp ((h₁.entries_perm d []).mem_iff.mpr hx)⟩

/-- C8, as stated, fails: every `range` loop draws its own visiting order, and when
`{"a": {"b": "x"}, "a.b": "y"}` is flattened with `"."` first with `"a"` visited first and
then again with `"a.b"` visited first, the first pass leaves `"a.b" -> "y"` and the second
pass changes it to `"a.b" -> "x"`. -/
theorem flatten_twice_counterexample :
    clashDoc.wf = true ∧ Reorder clashDoc clashDocSwapped ∧
    Source.Get (prepareData "." ∅ clashDoc [] "") "a.b" = "y" ∧
    Source.Get (prepareData "." (prepareData "." ∅ clashDoc [] "") clashDocSwapped [] "")
      "a.b" = "x" ∧
    prepareData "." (prepareData "." ∅ clashDoc [] "") clashDocSwapped [] "" ≠
      prepareData "." ∅ clashDoc [] "" :=
  ⟨by decide, Reorder.perm (List.Perm.swap _ _ _), by decide, by decide, by decide⟩

/-- C8, amended: when no two string leaves of `v` with different values get the same
composite key under the delimiter `d`, flattening `v` into `s` twice in a row, each pass
in any visiting order of the mapping entries, yields the store that flattening `v` into
`s` once yields (the store the first pass left, which is also what the second pass alone
would give). -/
theorem flatten_idempotent (v v₁ v₂ : Value) (d : String) (s : Source)
    (hc : NoClash d v) (h₁ : Reorder v v₁) (h₂ : Reorder v v₂) :
    prepareData d (prepareData d s v₁ [] "") v₂ [] "" = prepareData d s v₁ [] "" ∧
    prepareData d (prepareData d s v₁ [] "") v₂ [] "" = prepareData d s v₂ [] "" := by
  have h := prepareData_absorb_reordered d s h₁ h₂
  refine ⟨?_, h⟩
  rw [h, ← prepareData_reorder s hc h₁, ← prepareData_reorder s hc h₂]

/-- Witness for C8: `{"a": {"b": "hello", "c": "world"}}` flattened with `"b"` visited
first and then again with `"c"` visited first, into a store that already has an entry. -/
theorem flatten_idempotent_witness :
    NoClash "." helloWorld ∧ Reorder helloWorld helloWorld ∧
    Reorder helloWorld helloWorldSwapped ∧
    prepareData "." (prepareData "." (put ∅ "z" "kept") helloWorld [] "")
        helloWorldSwapped [] "" =
      prepareData "." (put ∅ "z" "kept") helloWorld [] "" :=
  have hc : NoClash "." helloWorld := by
    intro p x p' x' h h' hk
    simp only [helloWorld, Value.leaves, leavesEntries, List.map_cons, List.map_nil,
      List.append_nil, List.singleton_append, List.mem_cons, Prod.mk.injEq,
      List.mem_nil_iff, or_false] at h h'
    rcases h with ⟨rfl, rfl⟩ | ⟨rfl, rfl⟩ <;> rcases h' with ⟨rfl, rfl⟩ | ⟨rfl, rfl⟩
    · rfl
    · exact absurd hk (by decide)
    · exact absurd hk (by decide)
    · rfl
  have h : Reorder helloWorld helloWorldSwapped :=
    @Reorder.child [] [] "a" _ _ (Reorder.perm (List.Perm.swap _ _ _))
  ⟨hc, Reorder.refl _, h,
   (flatten_idempotent helloWorld helloWorld helloWorldSwapped "." (put ∅ "z" "kept") hc
     (Reorder.refl _) h).1⟩

end GoSource
